import Mathlib

/-!
Verification of the nockbox multisig transaction core (`src/txBuilder/tx-core.ts`
and the multi-note allocation helpers).  The TypeScript source is shallowly
embedded: JS `bigint` becomes `Int`, JS `number` (used only for integral
version / threshold / notBefore values) also becomes `Int`, JS strings become
`String`, JS objects used as string-keyed maps become association lists with
JS object-update semantics, thrown exceptions become `Except TxError`, and the
injected `CryptoProvider` / `Signer` become function records.  JSON values are
modelled by an explicit `Json` tree together with a renderer mirroring
`JSON.stringify`; `utf8ToBytes` is injective, so byte arrays produced by the
source are identified with the rendered strings.
-/

set_option maxRecDepth 200000

namespace NockTx

/-! ### String ordering

JS compares strings with `<` code-unit-wise.  We model it as lexicographic
comparison of the code points (identical on ASCII data such as the hashes,
hex strings and base58 identifiers this code handles), implemented by plain
structural recursion so that the kernel can evaluate it. -/

def natListLt : List Nat → List Nat → Bool
  | [], [] => false
  | [], _ :: _ => true
  | _ :: _, [] => false
  | a :: as, b :: bs =>
    if a < b then true else if b < a then false else natListLt as bs

def strKey (s : String) : List Nat := s.data.map Char.toNat

/-- JS `a < b` on strings. -/
def strLt (a b : String) : Bool := natListLt (strKey a) (strKey b)

/-- JS `!(b < a)`, i.e. `a ≤ b`. -/
def strLe (a b : String) : Bool := !(strLt b a)

theorem natListLt_irrefl (a : List Nat) : natListLt a a = false := by
  induction a with
  | nil => rfl
  | cons x xs ih =>
    simp only [natListLt]
    rw [if_neg (Nat.lt_irrefl x), if_neg (Nat.lt_irrefl x)]
    exact ih

theorem natListLt_asymm {a b : List Nat} (h : natListLt a b = true) :
    natListLt b a = false := by
  induction a generalizing b with
  | nil =>
    cases b with
    | nil => exact Bool.noConfusion h
    | cons y ys => rfl
  | cons x xs ih =>
    cases b with
    | nil => exact Bool.noConfusion h
    | cons y ys =>
      simp only [natListLt] at h ⊢
      by_cases hxy : x < y
      · rw [if_neg (by omega : ¬ y < x), if_pos hxy]
      · by_cases hyx : y < x
        · rw [if_neg hxy, if_pos hyx] at h
          exact Bool.noConfusion h
        · rw [if_neg hxy, if_neg hyx] at h
          rw [if_neg hyx, if_neg hxy]
          exact ih h

theorem natListLt_total (a b : List Nat) :
    natListLt a b = true ∨ natListLt b a = true ∨ a = b := by
  induction a generalizing b with
  | nil =>
    cases b with
    | nil => right; right; rfl
    | cons y ys => left; rfl
  | cons x xs ih =>
    cases b with
    | nil => right; left; rfl
    | cons y ys =>
      by_cases hxy : x < y
      · left; simp only [natListLt]; rw [if_pos hxy]
      · by_cases hyx : y < x
        · right; left; simp only [natListLt]; rw [if_pos hyx]
        · have hxyeq : x = y := by omega
          subst hxyeq
          rcases ih ys with h | h | h
          · left; simp only [natListLt]
            rw [if_neg hxy, if_neg hxy]
            exact h
          · right; left; simp only [natListLt]
            rw [if_neg hxy, if_neg hxy]
            exact h
          · right; right; rw [h]

theorem natListLt_trans {a b c : List Nat} (hab : natListLt a b = true)
    (hbc : natListLt b c = true) : natListLt a c = true := by
  induction a generalizing b c with
  | nil =>
    cases b with
    | nil => exact Bool.noConfusion hab
    | cons y ys =>
      cases c with
      | nil => exact Bool.noConfusion hbc
      | cons z zs => rfl
  | cons x xs ih =>
    cases b with
    | nil => exact Bool.noConfusion hab
    | cons y ys =>
      cases c with
      | nil => exact Bool.noConfusion hbc
      | cons z zs =>
        simp only [natListLt] at hab hbc ⊢
        by_cases hxy : x < y
        · by_cases hyz : y < z
          · rw [if_pos (by omega : x < z)]
          · by_cases hzy : z < y
            · rw [if_neg hyz, if_pos hzy] at hbc
              exact Bool.noConfusion hbc
            · rw [if_pos (by omega : x < z)]
        · by_cases hyx : y < x
          · rw [if_neg hxy, if_pos hyx] at hab
            exact Bool.noConfusion hab
          · by_cases hyz : y < z
            · rw [if_pos (by omega : x < z)]
            · by_cases hzy : z < y
              · rw [if_neg hyz, if_pos hzy] at hbc
                exact Bool.noConfusion hbc
              · rw [if_neg hxy, if_neg hyx] at hab
                rw [if_neg hyz, if_neg hzy] at hbc
                rw [if_neg (by omega : ¬ x < z), if_neg (by omega : ¬ z < x)]
                exact ih hab hbc

theorem strLe_trans {a b c : String} (hab : strLe a b = true)
    (hbc : strLe b c = true) : strLe a c = true := by
  simp only [strLe, strLt, Bool.not_eq_true'] at *
  cases hca : natListLt (strKey c) (strKey a) with
  | false => rfl
  | true =>
    rcases natListLt_total (strKey a) (strKey b) with h1 | h1 | h1
    · rw [natListLt_trans hca h1] at hbc
      exact Bool.noConfusion hbc
    · rw [h1] at hab
      exact Bool.noConfusion hab
    · rw [h1] at hca
      rw [hca] at hbc
      exact Bool.noConfusion hbc

theorem strLe_total (a b : String) : strLe a b = true ∨ strLe b a = true := by
  simp only [strLe, strLt, Bool.not_eq_true']
  rcases natListLt_total (strKey a) (strKey b) with h | h | h
  · left
    exact natListLt_asymm h
  · right
    exact natListLt_asymm h
  · left
    rw [h]
    exact natListLt_irrefl _

theorem strLt_of_not_lt_of_ne {a b : String}
    (h : strLt a b = false) (hne : strKey a ≠ strKey b) : strLt b a = true := by
  rcases natListLt_total (strKey a) (strKey b) with h1 | h1 | h1
  · rw [strLt] at h
    rw [h1] at h
    exact Bool.noConfusion h
  · exact h1
  · exact absurd h1 hne

/-! ### Stable sorting by a string key

`Array.prototype.sort` with a three-way string-comparison callback; ES2019+
requires a stable sort, modelled by insertion sort that inserts each element
before the first strictly-greater element of the already-sorted tail. -/

def insertBy {α : Type} (key : α → String) (x : α) : List α → List α
  | [] => [x]
  | y :: ys => if strLt (key y) (key x) then y :: insertBy key x ys else x :: y :: ys

def sortBy {α : Type} (key : α → String) (l : List α) : List α :=
  l.foldr (insertBy key) []

theorem insertBy_perm {α : Type} (key : α → String) (x : α) (l : List α) :
    (insertBy key x l).Perm (x :: l) := by
  induction l with
  | nil => simp [insertBy]
  | cons y ys ih =>
    by_cases h : strLt (key y) (key x) = true
    · simp only [insertBy]
      rw [if_pos h]
      exact ((ih.cons y).trans (List.Perm.swap x y ys))
    · simp only [insertBy]
      rw [if_neg h]

theorem sortBy_perm {α : Type} (key : α → String) (l : List α) :
    (sortBy key l).Perm l := by
  induction l with
  | nil => simp [sortBy]
  | cons x xs ih =>
    simp only [sortBy, List.foldr_cons]
    exact (insertBy_perm key x _).trans (ih.cons x)

theorem insertBy_sorted {α : Type} (key : α → String) (x : α) (l : List α)
    (h : l.Pairwise (fun a b => strLe (key a) (key b) = true)) :
    (insertBy key x l).Pairwise (fun a b => strLe (key a) (key b) = true) := by
  induction l with
  | nil => simp [insertBy]
  | cons y ys ih =>
    rcases List.pairwise_cons.mp h with ⟨hy, hys⟩
    by_cases hlt : strLt (key y) (key x) = true
    · simp only [insertBy]
      rw [if_pos hlt]
      refine List.pairwise_cons.mpr ⟨?_, ih hys⟩
      intro z hz
      have hz' := (insertBy_perm key x ys).mem_iff.mp hz
      rcases List.mem_cons.mp hz' with hz' | hz'
      · subst hz'
        simp only [strLe, Bool.not_eq_true']
        exact natListLt_asymm hlt
      · exact hy z hz'
    · simp only [insertBy]
      rw [if_neg hlt]
      refine List.pairwise_cons.mpr ⟨?_, h⟩
      intro z hz
      rcases List.mem_cons.mp hz with hz | hz
      · subst hz
        simp only [strLe, Bool.not_eq_true']
        simpa using hlt
      · have h1 : strLe (key x) (key y) = true := by
          simp only [strLe, Bool.not_eq_true']
          simpa using hlt
        exact strLe_trans h1 (hy z hz)

theorem sortBy_sorted {α : Type} (key : α → String) (l : List α) :
    (sortBy key l).Pairwise (fun a b => strLe (key a) (key b) = true) := by
  induction l with
  | nil => simp [sortBy]
  | cons x xs ih => exact insertBy_sorted key x _ ih

/-- A key-sorted list is a fixed point of `sortBy`. -/
theorem sortBy_eq_self_of_sorted {α : Type} (key : α → String) (l : List α)
    (h : l.Pairwise (fun a b => strLe (key a) (key b) = true)) :
    sortBy key l = l := by
  induction l with
  | nil => simp [sortBy]
  | cons x xs ih =>
    rcases List.pairwise_cons.mp h with ⟨hx, hxs⟩
    simp only [sortBy, List.foldr_cons]
    rw [show xs.foldr (insertBy key) [] = sortBy key xs from rfl, ih hxs]
    cases xs with
    | nil => simp [insertBy]
    | cons y ys =>
      have hxy : strLe (key x) (key y) = true := hx y (List.mem_cons_self _ _)
      have : strLt (key y) (key x) = false := by
        simpa [strLe, Bool.not_eq_true'] using hxy
      simp [insertBy, this]

/-! ### JSON values and `canonicalStringify`

`canonicalStringify` is `JSON.stringify` with a replacer turning every
`bigint` into the tagged string `"n:" ++ decimal`.  We model JSON documents as
an explicit tree of the *serialized* shape: the replacer is applied up front,
so a bigint-valued field appears as `.str ("n:" ++ intDec v)` in the tree,
exactly as in the emitted document (and as in its re-parse before the reviver
runs).  `deepCanonicalize` (with `sortArrays: false`)
only sorts object keys recursively; the encoders below therefore list the
keys of every object literal they build in sorted order, which is the net
effect of `deepCanonicalize` on them. -/

inductive Json where
  | null : Json
  | num : Int → Json
  | str : String → Json
  | arr : List Json → Json
  | obj : List (String × Json) → Json

/-- Decimal digits of a natural number, most significant first
(`Nat.toString` / JS `BigInt.prototype.toString`). -/
def digitChar (d : Nat) : Char :=
  if d = 0 then '0' else if d = 1 then '1' else if d = 2 then '2'
  else if d = 3 then '3' else if d = 4 then '4' else if d = 5 then '5'
  else if d = 6 then '6' else if d = 7 then '7' else if d = 8 then '8' else '9'

/-- Fuel-driven so that the kernel can evaluate it; `n + 1` units of fuel
always suffice since a number has at most `n + 1` decimal digits. -/
def natDecCharsFuel : Nat → Nat → List Char
  | 0, _ => []
  | fuel + 1, n =>
    if n < 10 then [digitChar n]
    else natDecCharsFuel fuel (n / 10) ++ [digitChar (n % 10)]

def natDecChars (n : Nat) : List Char := natDecCharsFuel (n + 1) n

def natDec (n : Nat) : String := ⟨natDecChars n⟩

/-- Decimal rendering of a JS number/bigint integer value. -/
def intDec (n : Int) : String :=
  if n < 0 then "-" ++ natDec n.natAbs else natDec n.natAbs

/-- JSON string escaping as done by `JSON.stringify` (quotes and backslashes;
the control-character escapes are irrelevant to the data handled here). -/
def escChar (c : Char) : String :=
  if c = '"' then "\\\"" else if c = '\\' then "\\\\" else String.singleton c

def renderString (s : String) : String :=
  "\"" ++ String.join (s.data.map escChar) ++ "\""

mutual

/-- `canonicalStringify`: `JSON.stringify(value, bigint-replacer, 0)`. -/
def canonicalStringify : Json → String
  | .null => "null"
  | .num n => intDec n
  | .str s => renderString s
  | .arr xs => "[" ++ renderArr xs ++ "]"
  | .obj fs => "\x7b" ++ renderObj fs ++ "\x7d"

def renderArr : List Json → String
  | [] => ""
  | [x] => canonicalStringify x
  | x :: y :: xs => canonicalStringify x ++ "," ++ renderArr (y :: xs)

def renderObj : List (String × Json) → String
  | [] => ""
  | [(k, v)] => renderString k ++ ":" ++ canonicalStringify v
  | (k, v) :: f :: fs =>
    renderString k ++ ":" ++ canonicalStringify v ++ "," ++ renderObj (f :: fs)

end

/-! ### JS objects used as string-keyed maps

`Record<PubKey, Signature>` values are modelled as association lists in key
insertion order, with JS property-update semantics: assigning to an existing
key keeps its position, assigning a fresh key appends. -/

def recordInsert (m : List (String × String)) (k v : String) :
    List (String × String) :=
  if m.any (fun p => p.1 = k) then
    m.map (fun p => if p.1 = k then (k, v) else p)
  else m ++ [(k, v)]

/-- The JS spread `{...a, ...b}`. -/
def recordUnion (a b : List (String × String)) : List (String × String) :=
  b.foldl (fun acc p => recordInsert acc p.1 p.2) a

def recordLookup (m : List (String × String)) (k : String) : Option String :=
  (m.find? (fun p => p.1 = k)).map Prod.snd

def recordKeys (m : List (String × String)) : List String := m.map Prod.fst

/-- `Object.entries(..).sort(by key)` / `deepCanonicalize` on a record. -/
def recordSorted (m : List (String × String)) : List (String × String) :=
  sortBy Prod.fst m

/-! ### Data model (`tx-core.ts`) -/

/-- `Lock` primitives. -/
inductive Lock where
  | pkh : Int → List String → Lock          -- threshold, pkhs
  | hax : String → Lock                     -- hash
  | tim : Int → Lock → Lock                 -- notBefore, inner
  | brn : Lock
  deriving DecidableEq

/-- `Seeds` = proofs/witnesses. -/
inductive Seeds where
  | pkh : Int → List String → List (String × String) → Seeds
       -- threshold, pkhs, signatures (pubkey -> signature)
  | hax : Option String → Seeds             -- preimage?
  | tim : Int → Seeds → Seeds               -- notBefore, inner
  | brn : Seeds
  deriving DecidableEq

def Seeds.kind : Seeds → String
  | .pkh _ _ _ => "%pkh"
  | .hax _ => "%hax"
  | .tim _ _ => "%tim"
  | .brn => "%brn"

def Lock.kind : Lock → String
  | .pkh _ _ => "%pkh"
  | .hax _ => "%hax"
  | .tim _ _ => "%tim"
  | .brn => "%brn"

/-- A UTXO / Note.  `name : [hash(lock), source derivation]`. -/
structure Note where
  name : String × String
  assetId : Option String := none
  amount : Int
  lock : Lock
  deriving DecidableEq

structure Output where
  address : String
  amount : Int
  assetId : Option String := none
  deriving DecidableEq

structure Spend where
  noteId : String
  seeds : Seeds
  deriving DecidableEq

structure Transaction where
  version : Int
  network : Option String := none
  spends : List Spend
  outputs : List Output
  fee : Int
  unsignedHash : String
  deriving DecidableEq

/-- Injected crypto capability.  The source hashes / verifies over
`Uint8Array`s obtained by `utf8ToBytes` from canonical-stringified values;
since that conversion is injective the byte messages are identified with the
strings themselves. -/
structure CryptoProvider where
  hash : String → String
  hashPubkey : String → String
  verify : String → String → String → Bool   -- pubkey, message, signature

/-- Injected signer capability (`sign` modelled as a pure function of the
message bytes). -/
structure Signer where
  pubkey : String
  sign : String → String

/-- Error taxonomy: one constructor per distinct `throw new Error(...)` site
reachable in the embedded functions. -/
inductive TxError where
  | noteNameMismatch : TxError            -- "Note.name[0] mismatch..."
  | noteAmountNotPositive : TxError       -- "Note amount must be > 0."
  | pkhsNotUnique : TxError               -- "Lock pkhs must be unique."
  | thresholdNotPositive : TxError        -- "Threshold must be > 0."
  | thresholdExceedsPkhs : TxError        -- "Threshold cannot exceed number of pkhs."
  | noOutputs : TxError                   -- "At least one output is required."
  | outputAmountNotPositive : TxError     -- "Output amount must be > 0."
  | negativeFee : TxError                 -- "Fee cannot be negative."
  | insufficientFunds : Int → Int → TxError  -- needed (outputs+fee), available
  | onlyPkhSupported : TxError            -- attach/sign: "only %pkh supported."
  | signerNotAllowed : TxError            -- "Signer not allowed/not in lock"
  | unknownNoteId : TxError               -- "Unknown noteId for spend."
  | signatureVerificationFailed : TxError -- "Signature verification failed."
  | hashMismatch : TxError                -- merge: "unsignedHash differs."
  | kindMismatch : TxError                -- merge: "seeds kind mismatch"
  | thresholdMismatch : TxError           -- merge: "threshold differs."
  | pkhsMismatch : TxError                -- merge: "pkhs differ."
  | notBeforeMismatch : TxError           -- merge: "notBefore differs."
  | invalidTx : TxError                   -- importTx shape checks
  | badBigintLiteral : TxError            -- JSON.parse reviver: BigInt(...) throws
  | feeAllocation : TxError               -- "Unable to allocate enough fee..."
  | outputAllocation : TxError            -- "Unable to allocate outputs..."
  deriving DecidableEq

deriving instance DecidableEq for Except

/-- Short-circuiting `Array.prototype.map` over a callback that may throw. -/
def exceptMap {α β : Type} (f : α → Except TxError β) :
    List α → Except TxError (List β)
  | [] => .ok []
  | x :: xs =>
    match f x with
    | .error e => .error e
    | .ok y =>
      match exceptMap f xs with
      | .error e => .error e
      | .ok ys => .ok (y :: ys)

def noteIdFromName (name : String × String) : String := name.1 ++ "." ++ name.2


/-! ### Lock canonical encoding + hashing -/

def sortStrs (l : List String) : List String := sortBy (fun s => s) l

def jsonOfOptStr : Option String → Json
  | some s => .str s
  | none => .null

def canonicalizeLock : Lock → Json
  | .pkh t pkhs =>
    .obj [("kind", .str "%pkh"), ("pkhs", .arr ((sortStrs pkhs).map .str)),
          ("threshold", .num t)]
  | .hax h => .obj [("hash", .str h), ("kind", .str "%hax")]
  | .tim nb inner =>
    .obj [("inner", canonicalizeLock inner), ("kind", .str "%tim"),
          ("notBefore", .num nb)]
  | .brn => .obj [("kind", .str "%brn")]

/-- Deterministic lock encoding; `utf8ToBytes` of this string in the source. -/
def encodeLock (lock : Lock) : String := canonicalStringify (canonicalizeLock lock)

/-- `hash(lock)` used for `note.name[0]`. -/
def lockHash (lock : Lock) (crypto : CryptoProvider) : String :=
  crypto.hash (encodeLock lock)

def assertNoteNameMatchesLock (note : Note) (crypto : CryptoProvider) :
    Except TxError Unit :=
  if note.name.1 = lockHash note.lock crypto then .ok () else .error .noteNameMismatch

def validateNotes (notes : List Note) (crypto : CryptoProvider) :
    Except TxError Unit :=
  match notes with
  | [] => .ok ()
  | n :: rest =>
    match assertNoteNameMatchesLock n crypto with
    | .error e => .error e
    | .ok _ =>
      if n.amount ≤ 0 then .error .noteAmountNotPositive
      else validateNotes rest crypto

/-! ### Unsigned payload encoding (what signers sign) -/

def recordSortedEntries (m : List (String × String)) : List (String × String) :=
  recordSorted m

def canonicalizeSeeds : Seeds → Json
  | .pkh t pkhs sigs =>
    .obj [("kind", .str "%pkh"),
          ("pkhs", .arr ((sortStrs pkhs).map .str)),
          ("sigEntries", .arr ((recordSortedEntries sigs).map (fun p =>
            Json.obj [("pubkey", .str p.1), ("signature", .str p.2)]))),
          ("threshold", .num t)]
  | .hax pre => .obj [("kind", .str "%hax"), ("preimage", jsonOfOptStr pre)]
  | .tim nb inner =>
    .obj [("inner", canonicalizeSeeds inner), ("kind", .str "%tim"),
          ("notBefore", .num nb)]
  | .brn => .obj [("kind", .str "%brn")]

/-- `Omit<Transaction, "unsignedHash">`. -/
structure TxBase where
  version : Int
  network : Option String
  spends : List Spend
  outputs : List Output
  fee : Int

def Transaction.base (tx : Transaction) : TxBase :=
  ⟨tx.version, tx.network, tx.spends, tx.outputs, tx.fee⟩

def outputSortKey (o : Output) : String :=
  (match o.assetId with | some a => a | none => "") ++ "|" ++ o.address ++ "|" ++
    intDec o.amount

/-- Deterministic encoding of the unsigned payload (the bytes signers sign). -/
def encodeUnsignedPayload (t : TxBase) : String :=
  canonicalStringify (.obj
    [("fee", .str ("n:" ++ intDec t.fee)),
     ("network", jsonOfOptStr t.network),
     ("outputs", .arr ((sortBy outputSortKey t.outputs).map (fun o =>
       Json.obj [("address", .str o.address), ("amount", .str ("n:" ++ intDec o.amount)),
                 ("assetId", jsonOfOptStr o.assetId)]))),
     ("spends", .arr ((sortBy Spend.noteId t.spends).map (fun s =>
       Json.obj [("noteId", .str s.noteId), ("seeds", canonicalizeSeeds s.seeds)]))),
     ("version", .num t.version)])

/-! ### Locks -> Seeds, Notes -> Spends -/

def assertValidPkhLock (threshold : Int) (pkhs : List String) :
    Except TxError Unit :=
  if pkhs.dedup.length ≠ pkhs.length then .error .pkhsNotUnique
  else if threshold ≤ 0 then .error .thresholdNotPositive
  else if threshold > (pkhs.length : Int) then .error .thresholdExceedsPkhs
  else .ok ()

def seedsFromLock : Lock → Except TxError Seeds
  | .pkh t pkhs =>
    match assertValidPkhLock t pkhs with
    | .error e => .error e
    | .ok _ => .ok (.pkh t (sortStrs pkhs) [])
  | .hax _ => .ok (.hax none)
  | .tim nb inner =>
    match seedsFromLock inner with
    | .error e => .error e
    | .ok s => .ok (.tim nb s)
  | .brn => .ok .brn

def buildSpends (notes : List Note) : Except TxError (List Spend) :=
  exceptMap
    (fun n =>
      match seedsFromLock n.lock with
      | .error e => .error e
      | .ok s => .ok { noteId := noteIdFromName n.name, seeds := s })
    (sortBy (fun n => noteIdFromName n.name) notes)

def sumInputs (notes : List Note) : Int :=
  notes.foldl (fun acc n => acc + n.amount) 0

def sumOutputs (outputs : List Output) : Int :=
  outputs.foldl (fun acc o => acc + o.amount) 0

/-! ### Build unsigned transaction -/

structure BuildArgs where
  version : Option Int := none
  network : Option String := none
  notes : List Note
  outputs : List Output
  fee : Int
  change : Option Output := none

def checkOutputAmounts : List Output → Except TxError Unit
  | [] => .ok ()
  | o :: rest =>
    if o.amount ≤ 0 then .error .outputAmountNotPositive
    else checkOutputAmounts rest

/-- `args.change ? [...args.outputs, args.change] : [...args.outputs]`. -/
def outputsWithChange (args : BuildArgs) : List Output :=
  match args.change with
  | some c => args.outputs ++ [c]
  | none => args.outputs

def buildUnsignedTransaction (args : BuildArgs) (crypto : CryptoProvider) :
    Except TxError Transaction :=
  let version := args.version.getD 1
  match validateNotes args.notes crypto with
  | .error e => .error e
  | .ok _ =>
    let outputs := outputsWithChange args
    if outputs.length = 0 then .error .noOutputs
    else match checkOutputAmounts outputs with
    | .error e => .error e
    | .ok _ =>
      if args.fee < 0 then .error .negativeFee
      else
        let inputTotal := sumInputs args.notes
        let outputTotal := sumOutputs outputs
        if inputTotal < outputTotal + args.fee then
          .error (.insufficientFunds (outputTotal + args.fee) inputTotal)
        else match buildSpends args.notes with
        | .error e => .error e
        | .ok spends =>
          let bytes := encodeUnsignedPayload ⟨version, args.network, spends, outputs, args.fee⟩
          .ok { version := version, network := args.network, spends := spends,
                outputs := outputs, fee := args.fee, unsignedHash := crypto.hash bytes }

/-! ### %pkh signing / verification / collection -/

def pkhIsAllowed (crypto : CryptoProvider) (pubkey : String) (pkhs : List String) :
    Bool :=
  pkhs.contains (crypto.hashPubkey pubkey) || pkhs.contains pubkey

def countCollectedPkhAux (crypto : CryptoProvider) (pkhs : List String) :
    List String → List String → Nat
  | [], _ => 0
  | pubkey :: rest, seenPkhs =>
    let pkh := crypto.hashPubkey pubkey
    if ¬ (pkhs.contains pkh || pkhs.contains pubkey) then
      countCollectedPkhAux crypto pkhs rest seenPkhs
    else if seenPkhs.contains pkh then
      countCollectedPkhAux crypto pkhs rest seenPkhs
    else
      countCollectedPkhAux crypto pkhs rest (pkh :: seenPkhs) + 1

/-- Count unique PKHs that have at least one signature provided
(`countCollectedPkh` on the fields of a `PkhSeeds`). -/
def countCollectedPkh (pkhs : List String) (signatures : List (String × String))
    (crypto : CryptoProvider) : Nat :=
  countCollectedPkhAux crypto pkhs (recordKeys signatures) []

def isPkhComplete (threshold : Int) (pkhs : List String)
    (signatures : List (String × String)) (crypto : CryptoProvider) : Bool :=
  (threshold ≤ (countCollectedPkh pkhs signatures crypto : Int) : Bool)

/-- Attach sig (validates membership by PKH). -/
def attachSignatureToSpend (tx : Transaction) (noteId pubkey signature : String)
    (crypto : CryptoProvider) : Except TxError Transaction :=
  match exceptMap
    (fun s =>
      if s.noteId ≠ noteId then .ok s
      else match s.seeds with
        | .pkh t pkhs sigs =>
          if ¬ pkhIsAllowed crypto pubkey pkhs then .error .signerNotAllowed
          else .ok { s with seeds := .pkh t pkhs (recordInsert sigs pubkey signature) }
        | _ => .error .onlyPkhSupported)
    tx.spends with
  | .error e => .error e
  | .ok spends => .ok { tx with spends := spends }

/-- Verify signature over canonical unsigned payload. -/
def verifySignatureOnTx (tx : Transaction) (pubkey signature : String)
    (crypto : CryptoProvider) : Bool :=
  crypto.verify pubkey (encodeUnsignedPayload tx.base) signature

/-- Sign and attach signature for a specific spend. -/
def signSpend (tx : Transaction) (noteId : String) (signer : Signer)
    (crypto : CryptoProvider) : Except TxError Transaction :=
  match tx.spends.find? (fun s => s.noteId = noteId) with
  | none => .error .unknownNoteId
  | some target =>
    match target.seeds with
    | .pkh _ pkhs _ =>
      if ¬ pkhIsAllowed crypto signer.pubkey pkhs then .error .signerNotAllowed
      else
        let bytes := encodeUnsignedPayload tx.base
        let sig := signer.sign bytes
        if ¬ crypto.verify signer.pubkey bytes sig then
          .error .signatureVerificationFailed
        else attachSignatureToSpend tx noteId signer.pubkey sig crypto
    | _ => .error .onlyPkhSupported

/-! ### Export / Import (share unsigned/partial signed)

`exportTx` canonical-stringifies the whole transaction (object keys sorted,
bigints tagged, `undefined` optional fields dropped by `JSON.stringify`).
`importTx` is `JSON.parse` with a reviver turning every string value
`"n:<digits>"` back into a bigint, followed by shape checks and a cast.  The
embedding works at the level of the `Json` tree: `JSON.parse` of a rendered
canonical tree returns the same tree (with string leaves revived), so
`importTx (exportTx tx)` is modelled by `importTxJson (exportTxJson tx)`.
The TS cast `parsed as Transaction` performs no deep validation; the typed
decoder below reads the exported shapes back field by field and surfaces a
revived-bigint-in-a-string-position (which the cast would let through as a
structurally different value) as `invalidTx`. -/

def exportSeedsJson : Seeds → Json
  | .pkh t pkhs sigs =>
    .obj [("kind", .str "%pkh"),
          ("pkhs", .arr (pkhs.map .str)),
          ("signatures", .obj ((recordSorted sigs).map (fun p => (p.1, Json.str p.2)))),
          ("threshold", .num t)]
  | .hax pre =>
    .obj (match pre with
      | some p => [("kind", Json.str "%hax"), ("preimage", Json.str p)]
      | none => [("kind", Json.str "%hax")])
  | .tim nb inner =>
    .obj [("inner", exportSeedsJson inner), ("kind", .str "%tim"),
          ("notBefore", .num nb)]
  | .brn => .obj [("kind", .str "%brn")]

def exportOutputJson (o : Output) : Json :=
  .obj (("address", Json.str o.address) :: ("amount", Json.str ("n:" ++ intDec o.amount)) ::
    (match o.assetId with
     | some a => [("assetId", Json.str a)]
     | none => []))

def exportSpendJson (s : Spend) : Json :=
  .obj [("noteId", .str s.noteId), ("seeds", exportSeedsJson s.seeds)]

def exportTxJson (tx : Transaction) : Json :=
  .obj (("fee", Json.str ("n:" ++ intDec tx.fee)) ::
    ((match tx.network with
      | some n => [("network", Json.str n)]
      | none => []) ++
     [("outputs", Json.arr (tx.outputs.map exportOutputJson)),
      ("spends", Json.arr (tx.spends.map exportSpendJson)),
      ("unsignedHash", Json.str tx.unsignedHash),
      ("version", Json.num tx.version)]))

def exportTx (tx : Transaction) : String := canonicalStringify (exportTxJson tx)

/-- Is a parsed string a tagged bigint (`"n:..."`)? -/
def hasTag (s : String) : Bool :=
  match s.data with
  | 'n' :: ':' :: _ => true
  | _ => false

def tagBody (s : String) : List Char := s.data.drop 2

def decDigitsAux : List Char → Nat → Option Nat
  | [], acc => some acc
  | c :: cs, acc =>
    if 48 ≤ c.toNat ∧ c.toNat ≤ 57 then decDigitsAux cs (acc * 10 + (c.toNat - 48))
    else none

/-- JS `BigInt(string)` on the literal forms arising here: empty string is
`0n`, otherwise an optional minus sign followed by decimal digits; anything
else throws (hex/octal/binary literal forms are not exercised by this code
and are treated as throwing). -/
def bigOfChars : List Char → Option Int
  | [] => some 0
  | c :: rest =>
    if c = '-' then
      match rest with
      | [] => none
      | _ =>
        match decDigitsAux rest 0 with
        | some m => some (-(m : Int))
        | none => none
    else
      match decDigitsAux (c :: rest) 0 with
      | some m => some ((m : Int))
      | none => none

/-- Read a string field after the reviver ran over it. -/
def readStr : Json → Except TxError String
  | .str s =>
    if hasTag s then
      match bigOfChars (tagBody s) with
      | some _ => .error .invalidTx        -- the reviver made this a bigint
      | none => .error .badBigintLiteral   -- BigInt(...) throws inside JSON.parse
    else .ok s
  | _ => .error .invalidTx

/-- Read a bigint field (serialized as a tagged string). -/
def readBig : Json → Except TxError Int
  | .str s =>
    if hasTag s then
      match bigOfChars (tagBody s) with
      | some n => .ok n
      | none => .error .badBigintLiteral
    else .error .invalidTx
  | _ => .error .invalidTx

def readNum : Json → Except TxError Int
  | .num n => .ok n
  | _ => .error .invalidTx

def decodeSigEntry (p : String × Json) : Except TxError (String × String) :=
  match readStr p.2 with
  | .error e => .error e
  | .ok v => .ok (p.1, v)

def decodeSeeds : Json → Except TxError Seeds
  | .obj [("kind", .str "%pkh"), ("pkhs", .arr pkhJs), ("signatures", .obj sigFs),
          ("threshold", .num t)] =>
    match exceptMap readStr pkhJs with
    | .error e => .error e
    | .ok pkhs =>
      match exceptMap decodeSigEntry sigFs with
      | .error e => .error e
      | .ok sigs => .ok (.pkh t pkhs sigs)
  | .obj [("kind", .str "%hax")] => .ok (.hax none)
  | .obj [("kind", .str "%hax"), ("preimage", pj)] =>
    match readStr pj with
    | .error e => .error e
    | .ok p => .ok (.hax (some p))
  | .obj [("inner", innerJ), ("kind", .str "%tim"), ("notBefore", .num nb)] =>
    match decodeSeeds innerJ with
    | .error e => .error e
    | .ok inner => .ok (.tim nb inner)
  | .obj [("kind", .str "%brn")] => .ok .brn
  | _ => .error .invalidTx

def decodeOutput : Json → Except TxError Output
  | .obj [("address", aj), ("amount", amj)] =>
    match readStr aj with
    | .error e => .error e
    | .ok a =>
      match readBig amj with
      | .error e => .error e
      | .ok am => .ok { address := a, amount := am, assetId := none }
  | .obj [("address", aj), ("amount", amj), ("assetId", sj)] =>
    match readStr aj with
    | .error e => .error e
    | .ok a =>
      match readBig amj with
      | .error e => .error e
      | .ok am =>
        match readStr sj with
        | .error e => .error e
        | .ok asset => .ok { address := a, amount := am, assetId := some asset }
  | _ => .error .invalidTx

def decodeSpend : Json → Except TxError Spend
  | .obj [("noteId", nj), ("seeds", sj)] =>
    match readStr nj with
    | .error e => .error e
    | .ok nid =>
      match decodeSeeds sj with
      | .error e => .error e
      | .ok seeds => .ok { noteId := nid, seeds := seeds }
  | _ => .error .invalidTx

def importTxFields (feeJ : Json) (networkJ : Option Json) (outsJ spendsJ : List Json)
    (hashJ verJ : Json) : Except TxError Transaction :=
  match readNum verJ with
  | .error e => .error e
  | .ok version =>
    match readStr hashJ with
    | .error e => .error e
    | .ok unsignedHash =>
      match readBig feeJ with
      | .error e => .error e
      | .ok fee =>
        match (match networkJ with
               | some nJ =>
                 (match readStr nJ with
                  | .error e => .error e
                  | .ok n => .ok (some n))
               | none => .ok none : Except TxError (Option String)) with
        | .error e => .error e
        | .ok network =>
          match exceptMap decodeOutput outsJ with
          | .error e => .error e
          | .ok outputs =>
            match exceptMap decodeSpend spendsJ with
            | .error e => .error e
            | .ok spends =>
              .ok { version := version, network := network, spends := spends,
                    outputs := outputs, fee := fee, unsignedHash := unsignedHash }

/-- `importTx` on the parse tree of an exported transaction (field order in an
exported object is the sorted order `exportTxJson` emits). -/
def importTxJson : Json → Except TxError Transaction
  | .obj [("fee", feeJ), ("network", nJ), ("outputs", .arr outsJ),
          ("spends", .arr spendsJ), ("unsignedHash", hashJ), ("version", verJ)] =>
    importTxFields feeJ (some nJ) outsJ spendsJ hashJ verJ
  | .obj [("fee", feeJ), ("outputs", .arr outsJ), ("spends", .arr spendsJ),
          ("unsignedHash", hashJ), ("version", verJ)] =>
    importTxFields feeJ none outsJ spendsJ hashJ verJ
  | _ => .error .invalidTx

/-! ### Merge partially signed txs -/

/-- `new Map(b.spends.map(s => [s.noteId, s])).get(id)` — the `Map`
constructor keeps the **last** entry for a duplicated key. -/
def mapGetLast (spends : List Spend) (id : String) : Option Spend :=
  spends.reverse.find? (fun s => s.noteId = id)

/-- The source compares pkh sets with
`canonicalStringify(A.pkhs.slice().sort()) !== canonicalStringify(B.pkhs.slice().sort())`;
`canonicalStringify` is injective on arrays of plain strings (JSON quoting and
escaping), so this is equality of the sorted lists. -/
def mergeSeeds : Seeds → Seeds → Except TxError Seeds
  | .pkh ta pa sa, .pkh tb pb sb =>
    if ta ≠ tb then .error .thresholdMismatch
    else if sortStrs pa ≠ sortStrs pb then .error .pkhsMismatch
    else .ok (.pkh ta pa (recordUnion sa sb))
  | .hax pa, .hax pb =>
    .ok (.hax (match pa with | some x => some x | none => pb))
  | .tim na ia, .tim nb ib =>
    if na ≠ nb then .error .notBeforeMismatch
    else match mergeSeeds ia ib with
      | .error e => .error e
      | .ok inner => .ok (.tim na inner)
  | .brn, .brn => .ok .brn
  | _, _ => .error .kindMismatch

/-- The per-spend body of `mergePartiallySignedTx` (for a spend present in
both transactions). -/
def mergeSpendPair (sa sb : Spend) : Except TxError Spend :=
  if sa.seeds.kind ≠ sb.seeds.kind then .error .kindMismatch
  else match sa.seeds, sb.seeds with
  | .pkh ta pa sA, .pkh tb pb sB =>
    if ta ≠ tb then .error .thresholdMismatch
    else if sortStrs pa ≠ sortStrs pb then .error .pkhsMismatch
    else .ok { sa with seeds := .pkh ta pa (recordUnion sA sB) }
  | .hax pA, .hax pB =>
    .ok { sa with seeds := .hax (match pA with | some x => some x | none => pB) }
  | .tim nA iA, .tim nB iB =>
    if nA ≠ nB then .error .notBeforeMismatch
    else match mergeSeeds iA iB with
    | .error e => .error e
    | .ok inner => .ok { sa with seeds := .tim nA inner }
  | .brn, _ => .ok sa
  | _, _ => .error .kindMismatch   -- unreachable: kinds already equal

def mergePartiallySignedTx (a b : Transaction) : Except TxError Transaction :=
  if a.unsignedHash ≠ b.unsignedHash then .error .hashMismatch
  else match exceptMap
    (fun sa =>
      match mapGetLast b.spends sa.noteId with
      | none => .ok sa
      | some sb => mergeSpendPair sa sb)
    a.spends with
  | .error e => .error e
  | .ok spends => .ok { a with spends := spends }

/-! ### Simple transaction builder for UI -/

structure Recipient where
  address : String
  amount : Int
  deriving DecidableEq

structure SimpleTxParams where
  inputs : List Note
  recipients : List Recipient
  fee : Int
  changeAddress : Option String := none

/-- Build a transaction with automatic change calculation.  The source guards
the change output with `changeAmount > 0n && changeAddress`, so by JS
truthiness an empty-string change address counts as absent. -/
def sumRecipients (rs : List Recipient) : Int :=
  rs.foldl (fun acc r => acc + r.amount) 0

def buildSimpleTransaction (params : SimpleTxParams) (crypto : CryptoProvider) :
    Except TxError Transaction :=
  let totalIn := sumInputs params.inputs
  let totalOut := sumRecipients params.recipients
  let changeAmount := totalIn - totalOut - params.fee
  if changeAmount < 0 then .error (.insufficientFunds (totalOut + params.fee) totalIn)
  else
    let outputs : List Output :=
      params.recipients.map (fun r => { address := r.address, amount := r.amount, assetId := none })
    let change : Option Output :=
      match params.changeAddress with
      | some ca =>
        if changeAmount > 0 ∧ ca ≠ "" then
          some { address := ca, amount := changeAmount, assetId := none }
        else none
      | none => none
    buildUnsignedTransaction
      { notes := params.inputs, outputs := outputs, fee := params.fee, change := change }
      crypto

/-! ### Multi-note fee / output distribution (wasm builder helpers)

`BuilderSpend` keeps the fields the allocation loops read and write:
`input.note.assets`, `fee`, and the accumulated `seeds`.  `BuilderSeed` is the
`{lockId, amount}` shape used both for attached seeds and pending demands. -/

structure BuilderSeed where
  lockId : String
  amount : Int
  deriving DecidableEq

structure BuilderSpend where
  assets : Int
  fee : Int
  seeds : List BuilderSeed
  deriving DecidableEq

def getSpendUsed (s : BuilderSpend) : Int :=
  s.fee + s.seeds.foldl (fun acc seed => acc + seed.amount) 0

def distributeFeeLoop : List BuilderSpend → Int → (List BuilderSpend × Int)
  | [], remaining => ([], remaining)
  | s :: rest, remaining =>
    if remaining ≤ 0 then (s :: rest, remaining)
    else
      let capacity := s.assets - getSpendUsed s
      if capacity ≤ 0 then
        let (rs, r) := distributeFeeLoop rest remaining
        (s :: rs, r)
      else
        let feeShare := if remaining ≤ capacity then remaining else capacity
        let (rs, r) := distributeFeeLoop rest (remaining - feeShare)
        ({ s with fee := s.fee + feeShare } :: rs, r)

def distributeFeeAcrossSpends (spends : List BuilderSpend) (totalFee : Int) :
    Except TxError (List BuilderSpend) :=
  if totalFee ≤ 0 then .ok spends
  else
    let (spends2, remaining) := distributeFeeLoop spends totalFee
    if remaining > 0 then .error .feeAllocation else .ok spends2

/-- The inner `while (capacity > 0n && queue.length > 0)` loop of
`distributeAmountsAcrossSpends`: returns the seeds pushed onto the current
spend and the remaining queue. -/
def fillSpend (capacity : Int) : List BuilderSeed → (List BuilderSeed × List BuilderSeed)
  | [] => ([], [])
  | t :: rest =>
    if capacity ≤ 0 then ([], t :: rest)
    else if t.amount ≤ capacity then
      let (seeds, q) := fillSpend (capacity - t.amount) rest
      (⟨t.lockId, t.amount⟩ :: seeds, q)
    else
      ([⟨t.lockId, capacity⟩], ⟨t.lockId, t.amount - capacity⟩ :: rest)

def distributeAmountsLoop :
    List BuilderSpend → List BuilderSeed → (List BuilderSpend × List BuilderSeed)
  | [], queue => ([], queue)
  | s :: rest, queue =>
    if queue.length = 0 then (s :: rest, queue)
    else
      let capacity := s.assets - getSpendUsed s
      if capacity ≤ 0 then
        let (rs, q) := distributeAmountsLoop rest queue
        (s :: rs, q)
      else
        let (newSeeds, q1) := fillSpend capacity queue
        let (rs, q2) := distributeAmountsLoop rest q1
        ({ s with seeds := s.seeds ++ newSeeds } :: rs, q2)

def distributeAmountsAcrossSpends (spends : List BuilderSpend)
    (amounts : List BuilderSeed) : Except TxError (List BuilderSpend) :=
  let queue := amounts.filter (fun a => a.amount > 0)
  let (spends2, q) := distributeAmountsLoop spends queue
  if q.any (fun a => a.amount > 0) then .error .outputAllocation else .ok spends2

/-! ### Generic lemmas about the embedded combinators -/

theorem exceptMap_ok_forall₂ {α β : Type} {f : α → Except TxError β} :
    ∀ {l : List α} {ys : List β}, exceptMap f l = .ok ys →
      List.Forall₂ (fun x y => f x = .ok y) l ys := by
  intro l
  induction l with
  | nil =>
    intro ys h
    simp only [exceptMap] at h
    cases h
    exact List.Forall₂.nil
  | cons x xs ih =>
    intro ys h
    simp only [exceptMap] at h
    cases hfx : f x with
    | error e => rw [hfx] at h; cases h
    | ok y =>
      rw [hfx] at h
      cases hrest : exceptMap f xs with
      | error e => rw [hrest] at h; cases h
      | ok ys0 =>
        rw [hrest] at h
        cases h
        exact List.Forall₂.cons hfx (ih hrest)

theorem exceptMap_ok_of_forall {α β : Type} {f : α → Except TxError β} :
    ∀ {l : List α}, (∀ x ∈ l, ∃ y, f x = .ok y) → ∃ ys, exceptMap f l = .ok ys := by
  intro l
  induction l with
  | nil => intro _; exact ⟨[], rfl⟩
  | cons x xs ih =>
    intro h
    obtain ⟨y, hy⟩ := h x (List.mem_cons_self x xs)
    obtain ⟨ys, hys⟩ := ih (fun z hz => h z (List.mem_cons_of_mem x hz))
    exact ⟨y :: ys, by simp only [exceptMap, hy, hys]⟩

theorem exceptMap_error_of_mem {α β : Type} {f : α → Except TxError β} :
    ∀ {l : List α} {x : α}, x ∈ l → (∀ y, f x ≠ .ok y) →
      ∃ e, exceptMap f l = .error e := by
  intro l
  induction l with
  | nil => intro x hx; cases hx
  | cons z zs ih =>
    intro x hx hbad
    rcases List.mem_cons.mp hx with rfl | hx'
    · cases hfx : f x with
      | error e => exact ⟨e, by simp only [exceptMap, hfx]⟩
      | ok y => exact absurd hfx (hbad y)
    · cases hfz : f z with
      | error e => exact ⟨e, by simp only [exceptMap, hfz]⟩
      | ok y =>
        obtain ⟨e, he⟩ := ih hx' hbad
        exact ⟨e, by simp only [exceptMap, hfz, he]⟩

theorem exceptMap_error_elim {α β : Type} {f : α → Except TxError β} :
    ∀ {l : List α} {e : TxError}, exceptMap f l = .error e →
      ∃ x ∈ l, f x = .error e := by
  intro l
  induction l with
  | nil => intro e h; simp only [exceptMap] at h; cases h
  | cons x xs ih =>
    intro e h
    simp only [exceptMap] at h
    cases hfx : f x with
    | error e0 =>
      rw [hfx] at h
      cases h
      exact ⟨x, List.mem_cons_self x xs, hfx⟩
    | ok y =>
      rw [hfx] at h
      cases hrest : exceptMap f xs with
      | error e0 =>
        rw [hrest] at h
        cases h
        obtain ⟨z, hz, hfz⟩ := ih hrest
        exact ⟨z, List.mem_cons_of_mem x hz, hfz⟩
      | ok ys => rw [hrest] at h; cases h

theorem foldl_add_int {α : Type} (g : α → Int) (l : List α) (a : Int) :
    l.foldl (fun acc x => acc + g x) a = a + l.foldl (fun acc x => acc + g x) 0 := by
  induction l generalizing a with
  | nil => simp
  | cons x xs ih =>
    simp only [List.foldl_cons]
    rw [ih (a + g x), ih (0 + g x)]
    ring

theorem sumOutputs_append (l1 l2 : List Output) :
    sumOutputs (l1 ++ l2) = sumOutputs l1 + sumOutputs l2 := by
  induction l1 with
  | nil => simp [sumOutputs]
  | cons o os ih =>
    simp only [sumOutputs, List.cons_append, List.foldl_cons] at *
    rw [foldl_add_int Output.amount, ih,
        foldl_add_int Output.amount os (0 + o.amount)]
    ring

theorem sumOutputs_cons (o : Output) (l : List Output) :
    sumOutputs (o :: l) = o.amount + sumOutputs l := by
  simp only [sumOutputs, List.foldl_cons]
  rw [foldl_add_int Output.amount]
  ring

/-! ### Signature collection: `countCollectedPkh` counts distinct resolved pkhs -/

theorem countCollectedPkhAux_eq (crypto : CryptoProvider) (pkhs : List String)
    (keys : List String) (seen : List String) :
    countCollectedPkhAux crypto pkhs keys seen =
      (((keys.filter (fun pk =>
          pkhs.contains (crypto.hashPubkey pk) || pkhs.contains pk)).map
        crypto.hashPubkey).toFinset \ seen.toFinset).card := by
  induction keys generalizing seen with
  | nil => simp [countCollectedPkhAux]
  | cons pk rest ih =>
    by_cases hmem : (pkhs.contains (crypto.hashPubkey pk) || pkhs.contains pk) = true
    · have hfil : (pk :: rest).filter (fun pk =>
          pkhs.contains (crypto.hashPubkey pk) || pkhs.contains pk) =
          pk :: rest.filter (fun pk =>
            pkhs.contains (crypto.hashPubkey pk) || pkhs.contains pk) := by
        simp only [List.filter_cons]
        rw [if_pos hmem]
      by_cases hseen : seen.contains (crypto.hashPubkey pk) = true
      · have hpkmem : crypto.hashPubkey pk ∈ seen := by simpa using hseen
        have h1 : countCollectedPkhAux crypto pkhs (pk :: rest) seen =
            countCollectedPkhAux crypto pkhs rest seen := by
          simp only [countCollectedPkhAux]
          rw [if_neg (not_not_intro hmem), if_pos hseen]
        have hRHS : ((((pk :: rest).filter (fun pk =>
              pkhs.contains (crypto.hashPubkey pk) || pkhs.contains pk)).map
              crypto.hashPubkey).toFinset \ seen.toFinset) =
            (((rest.filter (fun pk =>
              pkhs.contains (crypto.hashPubkey pk) || pkhs.contains pk)).map
              crypto.hashPubkey).toFinset \ seen.toFinset) := by
          rw [hfil, List.map_cons, List.toFinset_cons]
          ext z
          simp only [Finset.mem_sdiff, Finset.mem_insert, List.mem_toFinset]
          constructor
          · rintro ⟨rfl | hz, hzs⟩
            · exact absurd hpkmem hzs
            · exact ⟨hz, hzs⟩
          · rintro ⟨hz, hzs⟩
            exact ⟨Or.inr hz, hzs⟩
        rw [h1, ih, hRHS]
      · have hpknot : crypto.hashPubkey pk ∉ seen := by simpa using hseen
        have h1 : countCollectedPkhAux crypto pkhs (pk :: rest) seen =
            countCollectedPkhAux crypto pkhs rest (crypto.hashPubkey pk :: seen) + 1 := by
          simp only [countCollectedPkhAux]
          rw [if_neg (not_not_intro hmem), if_neg hseen]
        have hRHS : ((((pk :: rest).filter (fun pk =>
              pkhs.contains (crypto.hashPubkey pk) || pkhs.contains pk)).map
              crypto.hashPubkey).toFinset \ seen.toFinset) =
            insert (crypto.hashPubkey pk)
              ((((rest.filter (fun pk =>
                pkhs.contains (crypto.hashPubkey pk) || pkhs.contains pk)).map
                crypto.hashPubkey).toFinset \
                (crypto.hashPubkey pk :: seen).toFinset)) := by
          rw [hfil, List.map_cons, List.toFinset_cons, List.toFinset_cons]
          ext z
          simp only [Finset.mem_sdiff, Finset.mem_insert, List.mem_toFinset]
          constructor
          · rintro ⟨rfl | hz, hzs⟩
            · exact Or.inl rfl
            · by_cases hzpk : z = crypto.hashPubkey pk
              · exact Or.inl hzpk
              · exact Or.inr ⟨hz, fun hc => hc.elim hzpk hzs⟩
          · rintro (rfl | ⟨hz, hzs⟩)
            · exact ⟨Or.inl rfl, hpknot⟩
            · exact ⟨Or.inr hz, fun hc => hzs (Or.inr hc)⟩
        have hnot : crypto.hashPubkey pk ∉
            (((rest.filter (fun pk =>
              pkhs.contains (crypto.hashPubkey pk) || pkhs.contains pk)).map
              crypto.hashPubkey).toFinset \
              (crypto.hashPubkey pk :: seen).toFinset) := by
          intro hc
          rw [Finset.mem_sdiff, List.toFinset_cons] at hc
          exact hc.2 (Finset.mem_insert_self _ _)
        rw [h1, ih, hRHS, Finset.card_insert_of_not_mem hnot]
    · have hfil : (pk :: rest).filter (fun pk =>
          pkhs.contains (crypto.hashPubkey pk) || pkhs.contains pk) =
          rest.filter (fun pk =>
            pkhs.contains (crypto.hashPubkey pk) || pkhs.contains pk) := by
        simp only [List.filter_cons]
        rw [if_neg hmem]
      have h1 : countCollectedPkhAux crypto pkhs (pk :: rest) seen =
          countCollectedPkhAux crypto pkhs rest seen := by
        simp only [countCollectedPkhAux]
        rw [if_pos hmem]
      rw [h1, ih, hfil]

theorem countCollectedPkh_eq_card (crypto : CryptoProvider) (pkhs : List String)
    (signatures : List (String × String)) :
    countCollectedPkh pkhs signatures crypto =
      (((recordKeys signatures).filter (fun pk =>
          pkhs.contains (crypto.hashPubkey pk) || pkhs.contains pk)).map
        crypto.hashPubkey).toFinset.card := by
  rw [countCollectedPkh, countCollectedPkhAux_eq]
  simp

/-! ### Concrete fixtures for witnesses and counterexamples -/

/-- A concrete injected crypto provider: constant `hash`, prefix-tagging
`hashPubkey`, always-accepting `verify`. -/
def cHash : CryptoProvider :=
  { hash := fun _ => "HH",
    hashPubkey := fun pk => "h" ++ pk,
    verify := fun _ _ _ => true }

/-- A provider whose `hashPubkey` is constant, so distinct pubkey encodings
resolve to the same pkh. -/
def cHashConstPkh : CryptoProvider :=
  { hash := fun _ => "HH",
    hashPubkey := fun _ => "h1",
    verify := fun _ _ _ => true }

/-- **C5** (confirmed).  `countCollectedPkh` counts the distinct *resolved*
pkhs (the `hashPubkey` images) of the pubkeys in the signature map whose hash
or literal value lies in `pkhs` — deduplicated by resolved pkh, not by pubkey
string — and `isPkhComplete` is `false` whenever that count is below the
threshold `m` and `true` once the count reaches exactly `m`. -/
theorem c5_pkh_threshold_and_dedup (crypto : CryptoProvider) (threshold : Int)
    (pkhs : List String) (signatures : List (String × String)) :
    countCollectedPkh pkhs signatures crypto =
      (((recordKeys signatures).filter (fun pk =>
          pkhs.contains (crypto.hashPubkey pk) || pkhs.contains pk)).map
        crypto.hashPubkey).toFinset.card
    ∧ ((countCollectedPkh pkhs signatures crypto : Int) < threshold →
        isPkhComplete threshold pkhs signatures crypto = false)
    ∧ ((countCollectedPkh pkhs signatures crypto : Int) = threshold →
        isPkhComplete threshold pkhs signatures crypto = true) := by
  refine ⟨countCollectedPkh_eq_card crypto pkhs signatures, ?_, ?_⟩
  · intro h
    simp only [isPkhComplete, decide_eq_false_iff_not]
    omega
  · intro h
    simp only [isPkhComplete, decide_eq_true_eq]
    omega

/-- Witness for C5: two distinct pubkey strings resolving to the same pkh
count once, and the 1-of-1 lock is complete at exactly one collected pkh. -/
theorem c5_witness :
    countCollectedPkh ["h1"] [("PK1", "s1"), ("PK2", "s2")] cHashConstPkh = 1 ∧
    isPkhComplete 1 ["h1"] [("PK1", "s1"), ("PK2", "s2")] cHashConstPkh = true :=
  ⟨by decide,
   (c5_pkh_threshold_and_dedup cHashConstPkh 1 ["h1"]
     [("PK1", "s1"), ("PK2", "s2")]).2.2 (by decide)⟩

/-! ### Attach / sign error semantics -/

theorem exceptMap_id_of {α : Type} {f : α → Except TxError α} :
    ∀ {l : List α}, (∀ x ∈ l, f x = .ok x) → exceptMap f l = .ok l := by
  intro l
  induction l with
  | nil => intro _; rfl
  | cons x xs ih =>
    intro h
    simp only [exceptMap, h x (List.mem_cons_self x xs),
      ih (fun z hz => h z (List.mem_cons_of_mem x hz))]

theorem except_error_exists_iff {α : Type} {x : Except TxError α} :
    (∃ e, x = .error e) ↔ (∀ y, x ≠ .ok y) := by
  cases x with
  | error e =>
    exact ⟨fun _ y h => Except.noConfusion h, fun _ => ⟨e, rfl⟩⟩
  | ok t =>
    constructor
    · rintro ⟨e, he⟩
      cases he
    · intro h
      exact absurd rfl (h t)

/-- The spend-level condition under which `attachSignatureToSpend` throws for
a spend matched by `noteId`: non-%pkh seeds, or an unauthorized pubkey. -/
def spendRejectsAttach (crypto : CryptoProvider) (pubkey : String) (s : Spend) :
    Prop :=
  match s.seeds with
  | .pkh _ pkhs _ => ¬ pkhIsAllowed crypto pubkey pkhs = true
  | _ => True

/-- The callback `attachSignatureToSpend` maps over the spends. -/
def attachStep (noteId pubkey signature : String) (crypto : CryptoProvider)
    (s : Spend) : Except TxError Spend :=
  if s.noteId ≠ noteId then .ok s
  else match s.seeds with
    | .pkh t pkhs sigs =>
      if ¬ pkhIsAllowed crypto pubkey pkhs then .error .signerNotAllowed
      else .ok { s with seeds := .pkh t pkhs (recordInsert sigs pubkey signature) }
    | _ => .error .onlyPkhSupported

theorem attach_eq_map (tx : Transaction) (noteId pubkey signature : String)
    (crypto : CryptoProvider) :
    attachSignatureToSpend tx noteId pubkey signature crypto =
      match exceptMap (attachStep noteId pubkey signature crypto) tx.spends with
      | .error e => .error e
      | .ok spends => .ok { tx with spends := spends } := rfl

theorem attachStep_eq (noteId pubkey signature : String) (crypto : CryptoProvider)
    (sid : String) (sds : Seeds) :
    attachStep noteId pubkey signature crypto ⟨sid, sds⟩ =
      if sid ≠ noteId then .ok ⟨sid, sds⟩
      else match sds with
        | .pkh t pkhs sigs =>
          if ¬ pkhIsAllowed crypto pubkey pkhs then .error .signerNotAllowed
          else .ok ⟨sid, .pkh t pkhs (recordInsert sigs pubkey signature)⟩
        | _ => .error .onlyPkhSupported := rfl

theorem attachStep_ok_unmatched {noteId pubkey signature : String}
    {crypto : CryptoProvider} {s : Spend} (h : s.noteId ≠ noteId) :
    attachStep noteId pubkey signature crypto s = .ok s := by
  obtain ⟨sid, sds⟩ := s
  rw [attachStep_eq, if_pos h]

theorem attachStep_error_iff (noteId pubkey signature : String)
    (crypto : CryptoProvider) (s : Spend) :
    (∃ e, attachStep noteId pubkey signature crypto s = .error e) ↔
      (s.noteId = noteId ∧ spendRejectsAttach crypto pubkey s) := by
  obtain ⟨sid, sds⟩ := s
  rw [attachStep_eq]
  by_cases hid : sid ≠ noteId
  · rw [if_pos hid]
    constructor
    · rintro ⟨e, he⟩
      cases he
    · rintro ⟨h, -⟩
      exact absurd h hid
  · rw [if_neg hid]
    rw [not_not] at hid
    cases sds with
    | pkh t pkhs sigs =>
      simp only [spendRejectsAttach]
      by_cases hallow : pkhIsAllowed crypto pubkey pkhs = true
      · rw [if_neg (not_not_intro hallow)]
        constructor
        · rintro ⟨e, he⟩
          cases he
        · rintro ⟨-, hrej⟩
          exact absurd hallow hrej
      · rw [if_pos hallow]
        exact ⟨fun _ => ⟨hid, hallow⟩, fun _ => ⟨.signerNotAllowed, rfl⟩⟩
    | hax p =>
      simp only [spendRejectsAttach]
      exact ⟨fun _ => ⟨hid, trivial⟩, fun _ => ⟨.onlyPkhSupported, rfl⟩⟩
    | tim nb inner =>
      simp only [spendRejectsAttach]
      exact ⟨fun _ => ⟨hid, trivial⟩, fun _ => ⟨.onlyPkhSupported, rfl⟩⟩
    | brn =>
      simp only [spendRejectsAttach]
      exact ⟨fun _ => ⟨hid, trivial⟩, fun _ => ⟨.onlyPkhSupported, rfl⟩⟩

theorem attach_error_characterization (tx : Transaction)
    (noteId pubkey sg : String) (crypto : CryptoProvider) :
    (∃ e, attachSignatureToSpend tx noteId pubkey sg crypto = .error e) ↔
      (∃ s ∈ tx.spends, s.noteId = noteId ∧ spendRejectsAttach crypto pubkey s) := by
  rw [attach_eq_map]
  constructor
  · rintro ⟨e, he⟩
    cases hmap : exceptMap (attachStep noteId pubkey sg crypto) tx.spends with
    | error e0 =>
      obtain ⟨x, hx, hfx⟩ := exceptMap_error_elim hmap
      exact ⟨x, hx, (attachStep_error_iff noteId pubkey sg crypto x).mp ⟨e0, hfx⟩⟩
    | ok spends =>
      rw [hmap] at he
      cases he
  · rintro ⟨x, hx, hbad⟩
    obtain ⟨e, he⟩ := exceptMap_error_of_mem hx
      (except_error_exists_iff.mp
        ((attachStep_error_iff noteId pubkey sg crypto x).mpr hbad))
    rw [he]
    exact ⟨e, rfl⟩

/-- **C10** (confirmed).  `attachSignatureToSpend` fails exactly when a spend
matched by `noteId` has non-%pkh seeds or the pubkey is unauthorized (neither
its hash nor its literal value is in `pkhs`); when no spend matches it
returns the transaction unchanged without error, whereas `signSpend` fails
with the unknown-noteId error; and success never depends on the signature
string, since `crypto.verify` is never consulted by `attachSignatureToSpend`. -/
theorem c10_attach_error_semantics (tx : Transaction)
    (noteId pubkey sig sig2 : String) (crypto : CryptoProvider) (signer : Signer) :
    ((∀ s ∈ tx.spends, s.noteId ≠ noteId) →
      attachSignatureToSpend tx noteId pubkey sig crypto = .ok tx
      ∧ signSpend tx noteId signer crypto = .error .unknownNoteId)
    ∧ ((∃ e, attachSignatureToSpend tx noteId pubkey sig crypto = .error e) ↔
        (∃ s ∈ tx.spends, s.noteId = noteId ∧ spendRejectsAttach crypto pubkey s))
    ∧ ((attachSignatureToSpend tx noteId pubkey sig crypto).isOk =
        (attachSignatureToSpend tx noteId pubkey sig2 crypto).isOk) := by
  refine ⟨?_, attach_error_characterization tx noteId pubkey sig crypto, ?_⟩
  · intro hnone
    constructor
    · rw [attach_eq_map,
        exceptMap_id_of (fun x hx => attachStep_ok_unmatched (hnone x hx))]
    · have hfind : tx.spends.find? (fun s => s.noteId = noteId) = none := by
        rw [List.find?_eq_none]
        intro x hx
        simpa using hnone x hx
      simp only [signSpend, hfind]
  · have h1 := attach_error_characterization tx noteId pubkey sig crypto
    have h2 := attach_error_characterization tx noteId pubkey sig2 crypto
    cases ha : attachSignatureToSpend tx noteId pubkey sig crypto with
    | error e =>
      obtain ⟨e2, he2⟩ := h2.mpr (h1.mp ⟨e, ha⟩)
      rw [he2]
      rfl
    | ok t =>
      cases hb : attachSignatureToSpend tx noteId pubkey sig2 crypto with
      | error e2 =>
        obtain ⟨e1, he1⟩ := h1.mpr (h2.mp ⟨e2, hb⟩)
        rw [he1] at ha
        cases ha
      | ok t2 => rfl

/-- Witness for C10: attaching to an unknown noteId leaves the transaction
unchanged and `signSpend` on the same unknown noteId fails. -/
theorem c10_witness :
    (attachSignatureToSpend
      { version := 1, spends := [⟨"HH.d", .pkh 1 ["hA"] []⟩],
        outputs := [⟨"addr", 3, none⟩], fee := 0, unsignedHash := "HH" }
      "zz" "A" "whatever" cHash =
      .ok { version := 1, spends := [⟨"HH.d", .pkh 1 ["hA"] []⟩],
            outputs := [⟨"addr", 3, none⟩], fee := 0, unsignedHash := "HH" })
    ∧ (signSpend
      { version := 1, spends := [⟨"HH.d", .pkh 1 ["hA"] []⟩],
        outputs := [⟨"addr", 3, none⟩], fee := 0, unsignedHash := "HH" }
      "zz" ⟨"A", fun _ => "S"⟩ cHash = .error .unknownNoteId) :=
  (c10_attach_error_semantics
    { version := 1, spends := [⟨"HH.d", .pkh 1 ["hA"] []⟩],
      outputs := [⟨"addr", 3, none⟩], fee := 0, unsignedHash := "HH" }
    "zz" "A" "whatever" "other" cHash ⟨"A", fun _ => "S"⟩).1 (by decide)

/-! ### Frame properties of signature attachment -/

/-- A `Seeds` value with all signature maps emptied: what is left is exactly
the non-signature content. -/
def stripSigs : Seeds → Seeds
  | .pkh t pkhs _ => .pkh t pkhs []
  | .hax p => .hax p
  | .tim nb inner => .tim nb (stripSigs inner)
  | .brn => .brn

theorem attachStep_ok_frame {noteId pubkey signature : String}
    {crypto : CryptoProvider} {s s2 : Spend}
    (h : attachStep noteId pubkey signature crypto s = .ok s2) :
    s2.noteId = s.noteId ∧ stripSigs s2.seeds = stripSigs s.seeds ∧
      (s.noteId ≠ noteId → s2 = s) := by
  obtain ⟨sid, sds⟩ := s
  rw [attachStep_eq] at h
  by_cases hid : sid ≠ noteId
  · rw [if_pos hid] at h
    cases h
    exact ⟨rfl, rfl, fun _ => rfl⟩
  · rw [if_neg hid] at h
    cases sds with
    | pkh t pkhs sigs =>
      dsimp only at h
      by_cases hallow : pkhIsAllowed crypto pubkey pkhs = true
      · rw [if_neg (not_not_intro hallow)] at h
        cases h
        exact ⟨rfl, rfl, fun hc => absurd hc hid⟩
      · rw [if_pos hallow] at h
        cases h
    | hax p => dsimp only at h; cases h
    | tim nb inner => dsimp only at h; cases h
    | brn => dsimp only at h; cases h

theorem attach_ok_inv {tx : Transaction} {noteId pubkey signature : String}
    {crypto : CryptoProvider} {tx2 : Transaction}
    (h : attachSignatureToSpend tx noteId pubkey signature crypto = .ok tx2) :
    ∃ spends2, exceptMap (attachStep noteId pubkey signature crypto) tx.spends = .ok spends2
      ∧ tx2 = { tx with spends := spends2 } := by
  rw [attach_eq_map] at h
  cases hmap : exceptMap (attachStep noteId pubkey signature crypto) tx.spends with
  | error e =>
    rw [hmap] at h
    cases h
  | ok spends2 =>
    rw [hmap] at h
    cases h
    exact ⟨spends2, rfl, rfl⟩

theorem signSpend_ok_attach {tx : Transaction} {noteId : String} {signer : Signer}
    {crypto : CryptoProvider} {tx2 : Transaction}
    (h : signSpend tx noteId signer crypto = .ok tx2) :
    ∃ sg, attachSignatureToSpend tx noteId signer.pubkey sg crypto = .ok tx2 := by
  unfold signSpend at h
  cases hfind : tx.spends.find? (fun s => s.noteId = noteId) with
  | none =>
    rw [hfind] at h
    cases h
  | some target =>
    rw [hfind] at h
    dsimp only at h
    cases hseeds : target.seeds with
    | pkh t pkhs sigs =>
      rw [hseeds] at h
      dsimp only at h
      by_cases hallow : pkhIsAllowed crypto signer.pubkey pkhs = true
      · rw [if_neg (not_not_intro hallow)] at h
        by_cases hver : crypto.verify signer.pubkey (encodeUnsignedPayload tx.base)
            (signer.sign (encodeUnsignedPayload tx.base)) = true
        · rw [if_neg (not_not_intro hver)] at h
          exact ⟨_, h⟩
        · rw [if_pos hver] at h
          cases h
      · rw [if_pos hallow] at h
        cases h
    | hax p =>
      rw [hseeds] at h
      dsimp only at h
      cases h
    | tim nb inner =>
      rw [hseeds] at h
      dsimp only at h
      cases h
    | brn =>
      rw [hseeds] at h
      dsimp only at h
      cases h

theorem attach_ok_frame {tx : Transaction} {noteId pubkey signature : String}
    {crypto : CryptoProvider} {tx2 : Transaction}
    (h : attachSignatureToSpend tx noteId pubkey signature crypto = .ok tx2) :
    tx2.unsignedHash = tx.unsignedHash ∧ tx2.version = tx.version ∧
      tx2.network = tx.network ∧ tx2.outputs = tx.outputs ∧ tx2.fee = tx.fee ∧
      List.Forall₂ (fun s1 s2 => s2.noteId = s1.noteId ∧
        stripSigs s2.seeds = stripSigs s1.seeds ∧
        (s1.noteId ≠ noteId → s2 = s1)) tx.spends tx2.spends := by
  obtain ⟨spends2, hmap, rfl⟩ := attach_ok_inv h
  refine ⟨rfl, rfl, rfl, rfl, rfl, ?_⟩
  exact List.Forall₂.imp (fun a b hfs => attachStep_ok_frame hfs) (exceptMap_ok_forall₂ hmap)

/-- **C7** (confirmed).  `unsignedHash` is stable: building from equal inputs
yields an equal hash, and a successful `attachSignatureToSpend` (or
`signSpend`, which delegates to it) leaves `unsignedHash`, `version`,
`network`, `outputs` and `fee` untouched — position by position, every spend
keeps its `noteId` and its signature-stripped seeds, and every spend not
matched by `noteId` is returned unchanged. -/
theorem c7_unsigned_hash_stability (args : BuildArgs) (crypto : CryptoProvider)
    (t1 t2 tx tx2 tx3 : Transaction) (noteId pubkey sig : String) (signer : Signer) :
    (buildUnsignedTransaction args crypto = .ok t1 →
      buildUnsignedTransaction args crypto = .ok t2 → t1.unsignedHash = t2.unsignedHash)
    ∧ (attachSignatureToSpend tx noteId pubkey sig crypto = .ok tx2 →
        tx2.unsignedHash = tx.unsignedHash ∧ tx2.version = tx.version ∧
        tx2.network = tx.network ∧ tx2.outputs = tx.outputs ∧ tx2.fee = tx.fee ∧
        List.Forall₂ (fun s1 s2 => s2.noteId = s1.noteId ∧
          stripSigs s2.seeds = stripSigs s1.seeds ∧
          (s1.noteId ≠ noteId → s2 = s1)) tx.spends tx2.spends)
    ∧ (signSpend tx noteId signer crypto = .ok tx3 →
        tx3.unsignedHash = tx.unsignedHash ∧ tx3.version = tx.version ∧
        tx3.network = tx.network ∧ tx3.outputs = tx.outputs ∧ tx3.fee = tx.fee ∧
        List.Forall₂ (fun s1 s2 => s2.noteId = s1.noteId ∧
          stripSigs s2.seeds = stripSigs s1.seeds ∧
          (s1.noteId ≠ noteId → s2 = s1)) tx.spends tx3.spends) := by
  refine ⟨?_, fun h => attach_ok_frame h, ?_⟩
  · intro h1 h2
    rw [h1] at h2
    cases h2
    rfl
  · intro h
    obtain ⟨sg, hat⟩ := signSpend_ok_attach h
    exact attach_ok_frame hat

/-- Witness for C7: a concrete attachment preserves the `unsignedHash`. -/
theorem c7_witness :
    (attachSignatureToSpend
        { version := 1, spends := [⟨"HH.d", .pkh 1 ["hA"] []⟩],
          outputs := [⟨"addr", 3, none⟩], fee := 0, unsignedHash := "HH" }
        "HH.d" "A" "SIG" cHash =
      .ok { version := 1, spends := [⟨"HH.d", .pkh 1 ["hA"] [("A", "SIG")]⟩],
            outputs := [⟨"addr", 3, none⟩], fee := 0, unsignedHash := "HH" })
    ∧ ({ version := 1, spends := [⟨"HH.d", .pkh 1 ["hA"] [("A", "SIG")]⟩],
         outputs := [⟨"addr", 3, none⟩], fee := 0,
         unsignedHash := "HH" : Transaction }).unsignedHash =
      ({ version := 1, spends := [⟨"HH.d", .pkh 1 ["hA"] []⟩],
         outputs := [⟨"addr", 3, none⟩], fee := 0,
         unsignedHash := "HH" : Transaction }).unsignedHash :=
  ⟨by decide,
   ((c7_unsigned_hash_stability
      { notes := [], outputs := [], fee := 0 } cHash
      { version := 1, spends := [], outputs := [], fee := 0, unsignedHash := "x" }
      { version := 1, spends := [], outputs := [], fee := 0, unsignedHash := "x" }
      { version := 1, spends := [⟨"HH.d", .pkh 1 ["hA"] []⟩],
        outputs := [⟨"addr", 3, none⟩], fee := 0, unsignedHash := "HH" }
      { version := 1, spends := [⟨"HH.d", .pkh 1 ["hA"] [("A", "SIG")]⟩],
        outputs := [⟨"addr", 3, none⟩], fee := 0, unsignedHash := "HH" }
      { version := 1, spends := [], outputs := [], fee := 0, unsignedHash := "x" }
      "HH.d" "A" "SIG" ⟨"A", fun _ => "S"⟩).2.1 (by decide)).1⟩

/-! ### C1: the "unsigned" payload includes the attached signatures -/

def c1note : Note := { name := ("HH", "d"), amount := 10, lock := .pkh 1 ["hA"] }

def c1args : BuildArgs :=
  { notes := [c1note], outputs := [{ address := "addr", amount := 3 }], fee := 0 }

def c1tx : Transaction :=
  { version := 1, network := none, spends := [⟨"HH.d", .pkh 1 ["hA"] []⟩],
    outputs := [⟨"addr", 3, none⟩], fee := 0, unsignedHash := "HH" }

def c1txSigned : Transaction :=
  { version := 1, network := none, spends := [⟨"HH.d", .pkh 1 ["hA"] [("A", "SIG")]⟩],
    outputs := [⟨"addr", 3, none⟩], fee := 0, unsignedHash := "HH" }

/-- **C1** (code_bug).  `canonicalizeSeeds` keeps the `sigEntries` of the
current signature map inside the "unsigned" payload, so attaching a new
signature changes the output of `encodeUnsignedPayload` — contradicting the
encoder's own contract that everyone signs exactly the same bytes.  At this
concrete transaction the build succeeds, the attachment succeeds, and the
recomputed signing bytes differ from the bytes at construction. -/
theorem c1_attach_changes_signing_bytes :
    buildUnsignedTransaction c1args cHash = .ok c1tx
    ∧ attachSignatureToSpend c1tx "HH.d" "A" "SIG" cHash = .ok c1txSigned
    ∧ encodeUnsignedPayload c1txSigned.base ≠ encodeUnsignedPayload c1tx.base :=
  ⟨by decide, by decide, by decide⟩

/-! ### Inversion of `buildUnsignedTransaction` and sortedness of spends -/

theorem buildUnsignedTransaction_ok_inv {args : BuildArgs} {crypto : CryptoProvider}
    {tx : Transaction} (h : buildUnsignedTransaction args crypto = .ok tx) :
    validateNotes args.notes crypto = .ok ()
    ∧ buildSpends args.notes = .ok tx.spends
    ∧ tx.outputs = outputsWithChange args
    ∧ tx.fee = args.fee
    ∧ tx.version = args.version.getD 1
    ∧ tx.network = args.network
    ∧ checkOutputAmounts (outputsWithChange args) = .ok ()
    ∧ ¬ args.fee < 0
    ∧ ¬ sumInputs args.notes < sumOutputs (outputsWithChange args) + args.fee
    ∧ (outputsWithChange args).length ≠ 0 := by
  unfold buildUnsignedTransaction at h
  cases hval : validateNotes args.notes crypto with
  | error e =>
    rw [hval] at h
    cases h
  | ok u =>
    cases u
    rw [hval] at h
    dsimp only at h
    by_cases hlen : (outputsWithChange args).length = 0
    · rw [if_pos hlen] at h
      cases h
    · rw [if_neg hlen] at h
      cases hchk : checkOutputAmounts (outputsWithChange args) with
      | error e =>
        rw [hchk] at h
        cases h
      | ok u2 =>
        cases u2
        rw [hchk] at h
        dsimp only at h
        by_cases hfee : args.fee < 0
        · rw [if_pos hfee] at h
          cases h
        · rw [if_neg hfee] at h
          by_cases hins : sumInputs args.notes <
              sumOutputs (outputsWithChange args) + args.fee
          · rw [if_pos hins] at h
            cases h
          · rw [if_neg hins] at h
            cases hbs : buildSpends args.notes with
            | error e =>
              rw [hbs] at h
              cases h
            | ok spends =>
              rw [hbs] at h
              cases h
              exact ⟨rfl, rfl, rfl, rfl, rfl, rfl, rfl, hfee, hins, hlen⟩

theorem forall₂_map_eq {α β γ : Type} {R : α → β → Prop} (g1 : α → γ) (g2 : β → γ)
    (hg : ∀ a b, R a b → g2 b = g1 a) :
    ∀ {l : List α} {ys : List β}, List.Forall₂ R l ys → ys.map g2 = l.map g1 := by
  intro l ys h
  induction h with
  | nil => rfl
  | cons hab _ ih => simp only [List.map_cons, ih, hg _ _ hab]

theorem buildSpends_map_noteId {notes : List Note} {spends : List Spend}
    (h : buildSpends notes = .ok spends) :
    spends.map Spend.noteId =
      (sortBy (fun n => noteIdFromName n.name) notes).map
        (fun n => noteIdFromName n.name) := by
  unfold buildSpends at h
  refine forall₂_map_eq _ _ ?_ (exceptMap_ok_forall₂ h)
  intro n sp hns
  cases hsl : seedsFromLock n.lock with
  | error e =>
    rw [hsl] at hns
    cases hns
  | ok sd =>
    rw [hsl] at hns
    cases hns
    rfl

def c3noteB : Note := { name := ("b", "y"), amount := 5, lock := .hax "x" }

def c3noteA : Note := { name := ("a", "x"), amount := 7, lock := .hax "x" }

/-- Counterexample for C3: `buildSpends` sorts.  With the caller's notes in
the order `[b.y, a.x]`, the first stored spend is built from the *second*
note, so the stored spends are not in the caller's original order. -/
theorem c3_counterexample :
    buildSpends [c3noteB, c3noteA] =
      .ok [⟨"a.x", .hax none⟩, ⟨"b.y", .hax none⟩]
    ∧ noteIdFromName c3noteB.name = "b.y"
    ∧ noteIdFromName c3noteA.name = "a.x" := by
  refine ⟨by decide, by decide, by decide⟩

/-- **C3** (corrected).  `buildSpends` sorts the notes by derived noteId
before building the spends, so the spends stored in the transaction ARE
sorted by noteId (ascending) and are a permutation of the spends derived from
the caller's notes; the positional mapping is to the sorted order, not the
caller's original order.  (The signing-bytes encoder additionally sorts its
own copy.) -/
theorem c3_amended_spends_sorted :
    (∀ (notes : List Note) (spends : List Spend), buildSpends notes = .ok spends →
      (spends.map Spend.noteId).Pairwise (fun a b => strLe a b = true)
      ∧ (spends.map Spend.noteId).Perm
          (notes.map (fun n => noteIdFromName n.name)))
    ∧ (∀ (args : BuildArgs) (crypto : CryptoProvider) (tx : Transaction),
        buildUnsignedTransaction args crypto = .ok tx →
        (tx.spends.map Spend.noteId).Pairwise (fun a b => strLe a b = true)
        ∧ (tx.spends.map Spend.noteId).Perm
            (args.notes.map (fun n => noteIdFromName n.name))) := by
  have hmain : ∀ (notes : List Note) (spends : List Spend),
      buildSpends notes = .ok spends →
      (spends.map Spend.noteId).Pairwise (fun a b => strLe a b = true)
      ∧ (spends.map Spend.noteId).Perm
          (notes.map (fun n => noteIdFromName n.name)) := by
    intro notes spends h
    rw [buildSpends_map_noteId h]
    constructor
    · exact List.Pairwise.map _ (fun a b hab => hab)
        (sortBy_sorted (fun n => noteIdFromName n.name) notes)
    · exact (sortBy_perm (fun n => noteIdFromName n.name) notes).map
        (fun n => noteIdFromName n.name)
  exact ⟨hmain, fun args crypto tx h =>
    hmain args.notes tx.spends (buildUnsignedTransaction_ok_inv h).2.1⟩

/-- Witness for C3's amended statement at a concrete input. -/
theorem c3_amended_witness :
    (([⟨"a.x", .hax none⟩, ⟨"b.y", .hax none⟩] : List Spend).map
      Spend.noteId).Pairwise (fun a b => strLe a b = true)
    ∧ (([⟨"a.x", .hax none⟩, ⟨"b.y", .hax none⟩] : List Spend).map
        Spend.noteId).Perm
        ([c3noteB, c3noteA].map (fun n => noteIdFromName n.name)) :=
  (c3_amended_spends_sorted).1 [c3noteB, c3noteA]
    [⟨"a.x", .hax none⟩, ⟨"b.y", .hax none⟩] (by decide)

/-! ### C2: building with sufficient funds -/

theorem buildUnsignedTransaction_ok_of {args : BuildArgs} {crypto : CryptoProvider}
    {spends : List Spend}
    (hval : validateNotes args.notes crypto = .ok ())
    (hlen : (outputsWithChange args).length ≠ 0)
    (hchk : checkOutputAmounts (outputsWithChange args) = .ok ())
    (hfee : ¬ args.fee < 0)
    (hins : ¬ sumInputs args.notes < sumOutputs (outputsWithChange args) + args.fee)
    (hbs : buildSpends args.notes = .ok spends) :
    buildUnsignedTransaction args crypto = .ok
      { version := args.version.getD 1, network := args.network, spends := spends,
        outputs := outputsWithChange args, fee := args.fee,
        unsignedHash := crypto.hash (encodeUnsignedPayload
          ⟨args.version.getD 1, args.network, spends, outputsWithChange args,
            args.fee⟩) } := by
  unfold buildUnsignedTransaction
  rw [hval]
  dsimp only
  rw [if_neg hlen, hchk]
  dsimp only
  rw [if_neg hfee, if_neg hins, hbs]

theorem buildUnsignedTransaction_insufficient {args : BuildArgs}
    {crypto : CryptoProvider}
    (hval : validateNotes args.notes crypto = .ok ())
    (hlen : (outputsWithChange args).length ≠ 0)
    (hchk : checkOutputAmounts (outputsWithChange args) = .ok ())
    (hfee : ¬ args.fee < 0)
    (hins : sumInputs args.notes < sumOutputs (outputsWithChange args) + args.fee) :
    buildUnsignedTransaction args crypto = .error
      (.insufficientFunds (sumOutputs (outputsWithChange args) + args.fee)
        (sumInputs args.notes)) := by
  unfold buildUnsignedTransaction
  rw [hval]
  dsimp only
  rw [if_neg hlen, hchk]
  dsimp only
  rw [if_neg hfee, if_pos hins]

theorem validateNotes_ok_of {notes : List Note} {crypto : CryptoProvider}
    (h : ∀ n ∈ notes, n.name.1 = lockHash n.lock crypto ∧ 0 < n.amount) :
    validateNotes notes crypto = .ok () := by
  induction notes with
  | nil => rfl
  | cons n rest ih =>
    obtain ⟨h1, h2⟩ := h n (List.mem_cons_self n rest)
    have ha : assertNoteNameMatchesLock n crypto = .ok () := by
      simp only [assertNoteNameMatchesLock, if_pos h1]
    simp only [validateNotes, ha]
    rw [if_neg (by omega : ¬ n.amount ≤ 0)]
    exact ih (fun z hz => h z (List.mem_cons_of_mem n hz))

theorem checkOutputAmounts_ok_of {outs : List Output}
    (h : ∀ o ∈ outs, 0 < o.amount) : checkOutputAmounts outs = .ok () := by
  induction outs with
  | nil => rfl
  | cons o rest ih =>
    have h1 := h o (List.mem_cons_self o rest)
    simp only [checkOutputAmounts]
    rw [if_neg (by omega : ¬ o.amount ≤ 0)]
    exact ih (fun z hz => h z (List.mem_cons_of_mem o hz))

/-- Structural validity of every %pkh node of a lock: what `seedsFromLock`
(via `assertValidPkhLock`) checks when deriving the empty witness. -/
def lockSeedsValid : Lock → Bool
  | .pkh t pkhs =>
    decide (pkhs.dedup.length = pkhs.length) && decide (0 < t) &&
      decide (t ≤ (pkhs.length : Int))
  | .hax _ => true
  | .tim _ inner => lockSeedsValid inner
  | .brn => true

theorem seedsFromLock_ok {lock : Lock} (h : lockSeedsValid lock = true) :
    ∃ sd, seedsFromLock lock = .ok sd := by
  induction lock with
  | pkh t pkhs =>
    simp only [lockSeedsValid, Bool.and_eq_true, decide_eq_true_eq] at h
    obtain ⟨⟨h1, h2⟩, h3⟩ := h
    have ha : assertValidPkhLock t pkhs = .ok () := by
      unfold assertValidPkhLock
      rw [if_neg (not_not_intro h1), if_neg (by omega : ¬ t ≤ 0),
        if_neg (by omega : ¬ t > (pkhs.length : Int))]
    exact ⟨.pkh t (sortStrs pkhs) [], by simp only [seedsFromLock, ha]⟩
  | hax hsh => exact ⟨.hax none, rfl⟩
  | tim nb inner ih =>
    simp only [lockSeedsValid] at h
    obtain ⟨sd, hsd⟩ := ih h
    exact ⟨.tim nb sd, by simp only [seedsFromLock, hsd]⟩
  | brn => exact ⟨.brn, rfl⟩

theorem buildSpends_ok_of {notes : List Note}
    (h : ∀ n ∈ notes, lockSeedsValid n.lock = true) :
    ∃ spends, buildSpends notes = .ok spends := by
  unfold buildSpends
  refine exceptMap_ok_of_forall ?_
  intro n hn
  have hn' : n ∈ notes :=
    (sortBy_perm (fun n => noteIdFromName n.name) notes).mem_iff.mp hn
  obtain ⟨sd, hsd⟩ := seedsFromLock_ok (h n hn')
  exact ⟨{ noteId := noteIdFromName n.name, seeds := sd }, by simp only [hsd]⟩

def c2note : Note := { name := ("HH", "d"), amount := 5, lock := .pkh 0 [] }

/-- Counterexample for C2.  This note passes integrity validation
(`name[0] = lockHash(lock)`, positive amount), the single output is positive,
the fee is zero and the inputs cover outputs plus fee — yet
`buildUnsignedTransaction` fails (with the threshold error from
`seedsFromLock`), because the claim's hypotheses say nothing about the lock's
own structural validity. -/
theorem c2_counterexample :
    validateNotes [c2note] cHash = .ok ()
    ∧ c2note.name.1 = lockHash c2note.lock cHash
    ∧ (0 : Int) < c2note.amount
    ∧ sumOutputs [⟨"a", 1, none⟩] + 0 ≤ sumInputs [c2note]
    ∧ buildUnsignedTransaction
        { notes := [c2note], outputs := [⟨"a", 1, none⟩], fee := 0 } cHash =
      .error .thresholdNotPositive := by
  refine ⟨by decide, by decide, by decide, by decide, by decide⟩

/-- **C2** (corrected).  With the additional hypothesis that every note's
lock is structurally valid (every %pkh node has unique pkhs and a threshold
in range — what `seedsFromLock` asserts), the claim holds: if the inputs
cover outputs plus fee the build succeeds and the built transaction satisfies
`sum(outputs) + fee ≤ sum(inputs)`; otherwise it fails with the
insufficient-funds error carrying needed and available amounts. -/
theorem c2_amended_build_succeeds (args : BuildArgs) (crypto : CryptoProvider)
    (hnotes : ∀ n ∈ args.notes, n.name.1 = lockHash n.lock crypto ∧
      0 < n.amount ∧ lockSeedsValid n.lock = true)
    (houts : ∀ o ∈ outputsWithChange args, 0 < o.amount)
    (hlen : outputsWithChange args ≠ [])
    (hfee : 0 ≤ args.fee) :
    (sumOutputs (outputsWithChange args) + args.fee ≤ sumInputs args.notes →
      ∃ tx, buildUnsignedTransaction args crypto = .ok tx
        ∧ sumOutputs tx.outputs + tx.fee ≤ sumInputs args.notes)
    ∧ (sumInputs args.notes < sumOutputs (outputsWithChange args) + args.fee →
      buildUnsignedTransaction args crypto = .error
        (.insufficientFunds (sumOutputs (outputsWithChange args) + args.fee)
          (sumInputs args.notes))) := by
  have hval : validateNotes args.notes crypto = .ok () :=
    validateNotes_ok_of (fun n hn => ⟨(hnotes n hn).1, (hnotes n hn).2.1⟩)
  have hchk : checkOutputAmounts (outputsWithChange args) = .ok () :=
    checkOutputAmounts_ok_of houts
  have hlen' : (outputsWithChange args).length ≠ 0 := by
    intro hc
    exact hlen (List.length_eq_zero.mp hc)
  have hfee' : ¬ args.fee < 0 := by omega
  constructor
  · intro hsum
    obtain ⟨spends, hbs⟩ := buildSpends_ok_of (fun n hn => (hnotes n hn).2.2)
    refine ⟨_, buildUnsignedTransaction_ok_of hval hlen' hchk hfee'
      (by omega) hbs, ?_⟩
    simpa using hsum
  · intro hins
    exact buildUnsignedTransaction_insufficient hval hlen' hchk hfee' hins

/-- Witness for C2's amended statement: a sufficient build succeeds with the
balance bound, and an insufficient one reports the exact needed/available. -/
theorem c2_amended_witness :
    (∃ tx, buildUnsignedTransaction
        { notes := [{ name := ("HH", "d"), amount := 10, lock := .pkh 1 ["hA"] }],
          outputs := [⟨"addr", 3, none⟩], fee := 2 } cHash = .ok tx
      ∧ sumOutputs tx.outputs + tx.fee ≤
          sumInputs [{ name := ("HH", "d"), amount := 10, lock := .pkh 1 ["hA"] }])
    ∧ buildUnsignedTransaction
        { notes := [{ name := ("HH", "d"), amount := 5, lock := .pkh 1 ["hA"] }],
          outputs := [⟨"addr", 10, none⟩], fee := 0 } cHash =
      .error (.insufficientFunds
        (sumOutputs (outputsWithChange
          { notes := [{ name := ("HH", "d"), amount := 5, lock := .pkh 1 ["hA"] }],
            outputs := [⟨"addr", 10, none⟩], fee := 0 }) + 0)
        (sumInputs [{ name := ("HH", "d"), amount := 5, lock := .pkh 1 ["hA"] }])) :=
  ⟨(c2_amended_build_succeeds
      { notes := [{ name := ("HH", "d"), amount := 10, lock := .pkh 1 ["hA"] }],
        outputs := [⟨"addr", 3, none⟩], fee := 2 } cHash
      (by decide) (by decide) (by decide) (by decide)).1 (by decide),
   (c2_amended_build_succeeds
      { notes := [{ name := ("HH", "d"), amount := 5, lock := .pkh 1 ["hA"] }],
        outputs := [⟨"addr", 10, none⟩], fee := 0 } cHash
      (by decide) (by decide) (by decide) (by decide)).2 (by decide)⟩

/-! ### C6: the simple builder's change handling -/

theorem validateNotes_error_shape :
    ∀ {notes : List Note} {crypto : CryptoProvider} {e : TxError},
      validateNotes notes crypto = .error e →
      e = .noteNameMismatch ∨ e = .noteAmountNotPositive := by
  intro notes
  induction notes with
  | nil =>
    intro crypto e h
    cases h
  | cons n rest ih =>
    intro crypto e h
    simp only [validateNotes] at h
    cases ha : assertNoteNameMatchesLock n crypto with
    | error e0 =>
      rw [ha] at h
      unfold assertNoteNameMatchesLock at ha
      split at ha
      · cases ha
      · cases ha
        cases h
        exact Or.inl rfl
    | ok u =>
      cases u
      rw [ha] at h
      dsimp only at h
      split at h
      · cases h
        exact Or.inr rfl
      · exact ih h

theorem checkOutputAmounts_error_shape :
    ∀ {outs : List Output} {e : TxError},
      checkOutputAmounts outs = .error e → e = .outputAmountNotPositive := by
  intro outs
  induction outs with
  | nil =>
    intro e h
    cases h
  | cons o rest ih =>
    intro e h
    simp only [checkOutputAmounts] at h
    split at h
    · cases h
      rfl
    · exact ih h

theorem seedsFromLock_error_shape :
    ∀ {lock : Lock} {e : TxError}, seedsFromLock lock = .error e →
      e = .pkhsNotUnique ∨ e = .thresholdNotPositive ∨ e = .thresholdExceedsPkhs := by
  intro lock
  induction lock with
  | pkh t pkhs =>
    intro e h
    simp only [seedsFromLock] at h
    cases ha : assertValidPkhLock t pkhs with
    | error e0 =>
      rw [ha] at h
      cases h
      unfold assertValidPkhLock at ha
      split at ha
      · cases ha
        exact Or.inl rfl
      · split at ha
        · cases ha
          exact Or.inr (Or.inl rfl)
        · split at ha
          · cases ha
            exact Or.inr (Or.inr rfl)
          · cases ha
    | ok u =>
      rw [ha] at h
      cases h
  | hax hsh =>
    intro e h
    cases h
  | tim nb inner ih =>
    intro e h
    simp only [seedsFromLock] at h
    cases hi : seedsFromLock inner with
    | error e0 =>
      rw [hi] at h
      cases h
      exact ih hi
    | ok sd =>
      rw [hi] at h
      cases h
  | brn =>
    intro e h
    cases h

theorem buildSpends_error_shape {notes : List Note} {e : TxError}
    (h : buildSpends notes = .error e) :
    e = .pkhsNotUnique ∨ e = .thresholdNotPositive ∨ e = .thresholdExceedsPkhs := by
  unfold buildSpends at h
  obtain ⟨n, -, hn⟩ := exceptMap_error_elim h
  cases hsl : seedsFromLock n.lock with
  | error e0 =>
    rw [hsl] at hn
    cases hn
    exact seedsFromLock_error_shape hsl
  | ok sd =>
    rw [hsl] at hn
    cases hn

/-- If the funds check cannot fire, `buildUnsignedTransaction` never reports
`insufficientFunds` (every other failure site uses a different error). -/
theorem buildUnsignedTransaction_not_insufficient {args : BuildArgs}
    {crypto : CryptoProvider}
    (h : ¬ sumInputs args.notes < sumOutputs (outputsWithChange args) + args.fee) :
    ∀ n a, buildUnsignedTransaction args crypto ≠ .error (.insufficientFunds n a) := by
  intro n a hc
  unfold buildUnsignedTransaction at hc
  cases hval : validateNotes args.notes crypto with
  | error e =>
    rw [hval] at hc
    cases hc
    rcases validateNotes_error_shape hval with h1 | h1 <;> cases h1
  | ok u =>
    cases u
    rw [hval] at hc
    dsimp only at hc
    by_cases hlen : (outputsWithChange args).length = 0
    · rw [if_pos hlen] at hc
      cases hc
    · rw [if_neg hlen] at hc
      cases hchk : checkOutputAmounts (outputsWithChange args) with
      | error e =>
        rw [hchk] at hc
        cases hc
        cases checkOutputAmounts_error_shape hchk
      | ok u2 =>
        cases u2
        rw [hchk] at hc
        dsimp only at hc
        by_cases hfee : args.fee < 0
        · rw [if_pos hfee] at hc
          cases hc
        · rw [if_neg hfee, if_neg h] at hc
          cases hbs : buildSpends args.notes with
          | error e =>
            rw [hbs] at hc
            cases hc
            rcases buildSpends_error_shape hbs with h1 | h1 | h1 <;> cases h1
          | ok spends =>
            rw [hbs] at hc
            cases hc

theorem sumOutputs_nil : sumOutputs [] = 0 := rfl

theorem sumOutputs_map_recipients (rs : List Recipient) :
    sumOutputs (rs.map (fun r =>
      { address := r.address, amount := r.amount, assetId := none : Output })) =
      sumRecipients rs := by
  unfold sumOutputs sumRecipients
  rw [List.foldl_map]

/-- **C6** (confirmed).  `buildSimpleTransaction` computes
`change = sum(inputs) − sum(recipients) − fee`; it fails with the
insufficient-funds error (reporting needed and available) exactly when
`change < 0`; when `change > 0` and a (non-empty, by JS truthiness) change
address is supplied, the built transaction's outputs are exactly the
recipients' outputs followed by one change output of amount `change`; and
when `change > 0` but no change address is supplied, the outputs are exactly
the recipients' — the surplus appears in no output. -/
theorem c6_simple_change_handling (p : SimpleTxParams) (crypto : CryptoProvider) :
    (sumInputs p.inputs - sumRecipients p.recipients - p.fee < 0 →
      buildSimpleTransaction p crypto = .error
        (.insufficientFunds (sumRecipients p.recipients + p.fee) (sumInputs p.inputs)))
    ∧ (¬ sumInputs p.inputs - sumRecipients p.recipients - p.fee < 0 →
      ∀ n a, buildSimpleTransaction p crypto ≠ .error (.insufficientFunds n a))
    ∧ (∀ tx ca, p.changeAddress = some ca → ca ≠ "" →
        0 < sumInputs p.inputs - sumRecipients p.recipients - p.fee →
        buildSimpleTransaction p crypto = .ok tx →
        tx.outputs = p.recipients.map (fun r =>
            { address := r.address, amount := r.amount, assetId := none })
          ++ [{ address := ca,
                amount := sumInputs p.inputs - sumRecipients p.recipients - p.fee,
                assetId := none }])
    ∧ (∀ tx, p.changeAddress = none →
        buildSimpleTransaction p crypto = .ok tx →
        tx.outputs = p.recipients.map (fun r =>
          { address := r.address, amount := r.amount, assetId := none })) := by
  refine ⟨?_, ?_, ?_, ?_⟩
  · intro hneg
    unfold buildSimpleTransaction
    rw [if_pos hneg]
  · intro hpos n a hc
    unfold buildSimpleTransaction at hc
    rw [if_neg hpos] at hc
    dsimp only at hc
    revert hc
    refine buildUnsignedTransaction_not_insufficient ?_ n a
    cases hca : p.changeAddress with
    | none =>
      dsimp only [outputsWithChange]
      rw [sumOutputs_map_recipients]
      omega
    | some ca =>
      dsimp only
      by_cases hcond : sumInputs p.inputs - sumRecipients p.recipients - p.fee > 0
          ∧ ca ≠ ""
      · rw [if_pos hcond]
        dsimp only [outputsWithChange]
        rw [sumOutputs_append, sumOutputs_map_recipients, sumOutputs_cons,
          sumOutputs_nil]
        dsimp only
        omega
      · rw [if_neg hcond]
        dsimp only [outputsWithChange]
        rw [sumOutputs_map_recipients]
        omega
  · intro tx ca hca hne hgt h
    unfold buildSimpleTransaction at h
    rw [if_neg (by omega : ¬ sumInputs p.inputs - sumRecipients p.recipients - p.fee < 0),
      hca] at h
    dsimp only at h
    rw [if_pos ⟨hgt, hne⟩] at h
    have hinv := buildUnsignedTransaction_ok_inv h
    rw [hinv.2.2.1]
    rfl
  · intro tx hca h
    unfold buildSimpleTransaction at h
    dsimp only at h
    rw [hca] at h
    dsimp only at h
    by_cases hneg : sumInputs p.inputs - sumRecipients p.recipients - p.fee < 0
    · rw [if_pos hneg] at h
      cases h
    · rw [if_neg hneg] at h
      have hinv := buildUnsignedTransaction_ok_inv h
      rw [hinv.2.2.1]
      rfl

/-- Witness for C6: with inputs 5, recipients 10, fee 0 the simple builder
reports needed 10, available 5. -/
theorem c6_witness :
    buildSimpleTransaction
      { inputs := [{ name := ("HH", "d"), amount := 5, lock := .pkh 1 ["hA"] }],
        recipients := [⟨"r", 10⟩], fee := 0 } cHash =
    .error (.insufficientFunds
      (sumRecipients [⟨"r", 10⟩] + 0)
      (sumInputs [{ name := ("HH", "d"), amount := 5, lock := .pkh 1 ["hA"] }])) :=
  (c6_simple_change_handling
    { inputs := [{ name := ("HH", "d"), amount := 5, lock := .pkh 1 ["hA"] }],
      recipients := [⟨"r", 10⟩], fee := 0 } cHash).1 (by decide)

/-! ### Record (JS object) lookup lemmas for merging -/

theorem recordLookup_cons (k0 v0 : String) (m : List (String × String)) (k : String) :
    recordLookup ((k0, v0) :: m) k =
      if k0 = k then some v0 else recordLookup m k := by
  simp only [recordLookup, List.find?_cons]
  by_cases h : k0 = k
  · simp [h]
  · simp [h]

theorem recordLookup_none_of_not_mem {m : List (String × String)} {k : String}
    (h : k ∉ m.map Prod.fst) : recordLookup m k = none := by
  unfold recordLookup
  cases hf : m.find? (fun p => p.1 = k) with
  | none => rfl
  | some p =>
    have hp := List.find?_some hf
    have hmem := List.mem_of_find?_eq_some hf
    simp only [decide_eq_true_eq] at hp
    exact absurd (hp ▸ List.mem_map_of_mem Prod.fst hmem) h

theorem recordLookup_map_replace_self (m : List (String × String)) (k v : String)
    (hany : m.any (fun p => p.1 = k) = true) :
    recordLookup (m.map (fun p => if p.1 = k then (k, v) else p)) k = some v := by
  induction m with
  | nil => cases hany
  | cons p ps ih =>
    by_cases hp : p.1 = k
    · simp only [List.map_cons, if_pos hp]
      rw [recordLookup_cons, if_pos rfl]
    · simp only [List.any_cons, Bool.or_eq_true, decide_eq_true_eq] at hany
      rcases hany with h | h
      · exact absurd h hp
      · simp only [List.map_cons, if_neg hp]
        rw [recordLookup_cons, if_neg hp]
        exact ih h

theorem recordLookup_map_replace_other (m : List (String × String)) (k v k' : String)
    (hk : k ≠ k') :
    recordLookup (m.map (fun p => if p.1 = k then (k, v) else p)) k' =
      recordLookup m k' := by
  induction m with
  | nil => rfl
  | cons p ps ih =>
    by_cases hp : p.1 = k
    · simp only [List.map_cons, if_pos hp]
      rw [recordLookup_cons, if_neg hk, recordLookup_cons, if_neg (hp ▸ hk), ih]
    · simp only [List.map_cons, if_neg hp]
      rw [recordLookup_cons, recordLookup_cons, ih]

theorem recordLookup_append_single (m : List (String × String)) (k v k' : String) :
    recordLookup (m ++ [(k, v)]) k' =
      match recordLookup m k' with
      | some w => some w
      | none => if k = k' then some v else none := by
  induction m with
  | nil =>
    simp only [List.nil_append]
    rw [recordLookup_cons]
    rfl
  | cons p ps ih =>
    simp only [List.cons_append]
    rw [recordLookup_cons, recordLookup_cons]
    by_cases hp : p.1 = k'
    · rw [if_pos hp, if_pos hp]
    · rw [if_neg hp, if_neg hp, ih]

theorem recordLookup_eq_none_of_any_false {m : List (String × String)} {k : String}
    (h : m.any (fun p => p.1 = k) = false) : recordLookup m k = none := by
  apply recordLookup_none_of_not_mem
  intro hc
  obtain ⟨p, hp, hpk⟩ := List.mem_map.mp hc
  have : m.any (fun p => p.1 = k) = true :=
    List.any_eq_true.mpr ⟨p, hp, by simpa using hpk⟩
  rw [h] at this
  cases this

theorem recordInsert_lookup_self (m : List (String × String)) (k v : String) :
    recordLookup (recordInsert m k v) k = some v := by
  unfold recordInsert
  by_cases hany : m.any (fun p => p.1 = k) = true
  · rw [if_pos hany]
    exact recordLookup_map_replace_self m k v hany
  · rw [if_neg hany]
    rw [recordLookup_append_single]
    rw [recordLookup_eq_none_of_any_false (Bool.not_eq_true _ ▸ hany)]
    rw [if_pos rfl]

theorem recordInsert_lookup_other (m : List (String × String)) (k v k' : String)
    (hk : k ≠ k') :
    recordLookup (recordInsert m k v) k' = recordLookup m k' := by
  unfold recordInsert
  by_cases hany : m.any (fun p => p.1 = k) = true
  · rw [if_pos hany]
    exact recordLookup_map_replace_other m k v k' hk
  · rw [if_neg hany]
    rw [recordLookup_append_single]
    cases hm : recordLookup m k' with
    | some w => rfl
    | none => rw [if_neg hk]

/-- The JS spread `{...a, ...b}` resolves a key to `b`'s entry when `b` has
one, else to `a`'s. -/
theorem recordUnion_lookup (sA sB : List (String × String)) (k : String)
    (hB : (sB.map Prod.fst).Nodup) :
    recordLookup (recordUnion sA sB) k =
      match recordLookup sB k with
      | some v => some v
      | none => recordLookup sA k := by
  induction sB generalizing sA with
  | nil => rfl
  | cons p rest ih =>
    obtain ⟨k0, v0⟩ := p
    simp only [List.map_cons, List.nodup_cons] at hB
    obtain ⟨hk0, hrest⟩ := hB
    have hstep : recordUnion sA ((k0, v0) :: rest) =
        recordUnion (recordInsert sA k0 v0) rest := rfl
    rw [hstep, ih _ hrest, recordLookup_cons]
    by_cases hk : k0 = k
    · subst hk
      have h1 : recordLookup rest k0 = none := recordLookup_none_of_not_mem hk0
      simp [h1, recordInsert_lookup_self]
    · rw [if_neg hk]
      cases hr : recordLookup rest k with
      | some w => rfl
      | none =>
        dsimp only
        exact recordInsert_lookup_other sA k0 v0 k hk

/-! ### Merge semantics -/

theorem mergeSeeds_error_shape :
    ∀ {x y : Seeds} {e : TxError}, mergeSeeds x y = .error e →
      e = .kindMismatch ∨ e = .thresholdMismatch ∨ e = .pkhsMismatch ∨
        e = .notBeforeMismatch := by
  intro x
  induction x with
  | pkh ta pa sa =>
    intro y e h
    cases y with
    | pkh tb pb sb =>
      simp only [mergeSeeds] at h
      by_cases hta : ta = tb
      · rw [if_neg (not_not_intro hta)] at h
        by_cases hpa : sortStrs pa = sortStrs pb
        · rw [if_neg (not_not_intro hpa)] at h
          cases h
        · rw [if_pos hpa] at h
          cases h
          exact Or.inr (Or.inr (Or.inl rfl))
      · rw [if_pos hta] at h
        cases h
        exact Or.inr (Or.inl rfl)
    | hax pb => cases h; exact Or.inl rfl
    | tim nb ib => cases h; exact Or.inl rfl
    | brn => cases h; exact Or.inl rfl
  | hax pa =>
    intro y e h
    cases y with
    | hax pb => cases h
    | pkh tb pb sb => cases h; exact Or.inl rfl
    | tim nb ib => cases h; exact Or.inl rfl
    | brn => cases h; exact Or.inl rfl
  | tim na ia ih =>
    intro y e h
    cases y with
    | tim nb ib =>
      simp only [mergeSeeds] at h
      by_cases hna : na = nb
      · rw [if_neg (not_not_intro hna)] at h
        cases hmi : mergeSeeds ia ib with
        | error e0 =>
          rw [hmi] at h
          cases h
          exact ih hmi
        | ok inner =>
          rw [hmi] at h
          cases h
      · rw [if_pos hna] at h
        cases h
        exact Or.inr (Or.inr (Or.inr rfl))
    | pkh tb pb sb => cases h; exact Or.inl rfl
    | hax pb => cases h; exact Or.inl rfl
    | brn => cases h; exact Or.inl rfl
  | brn =>
    intro y e h
    cases y with
    | brn => cases h
    | pkh tb pb sb => cases h; exact Or.inl rfl
    | hax pb => cases h; exact Or.inl rfl
    | tim nb ib => cases h; exact Or.inl rfl

theorem mergeSpendPair_error_shape {sa sb : Spend} {e : TxError}
    (h : mergeSpendPair sa sb = .error e) :
    e = .kindMismatch ∨ e = .thresholdMismatch ∨ e = .pkhsMismatch ∨
      e = .notBeforeMismatch := by
  unfold mergeSpendPair at h
  by_cases hk : sa.seeds.kind = sb.seeds.kind
  · rw [if_neg (not_not_intro hk)] at h
    cases hsa : sa.seeds with
    | pkh ta pa sA =>
      cases hsb : sb.seeds with
      | pkh tb pb sB =>
        rw [hsa, hsb] at h
        dsimp only at h
        by_cases hta : ta = tb
        · rw [if_neg (not_not_intro hta)] at h
          by_cases hpa : sortStrs pa = sortStrs pb
          · rw [if_neg (not_not_intro hpa)] at h
            cases h
          · rw [if_pos hpa] at h
            cases h
            exact Or.inr (Or.inr (Or.inl rfl))
        · rw [if_pos hta] at h
          cases h
          exact Or.inr (Or.inl rfl)
      | hax pb => rw [hsa, hsb] at hk; exact absurd hk (by dsimp only [Seeds.kind]; decide)
      | tim nb ib => rw [hsa, hsb] at hk; exact absurd hk (by dsimp only [Seeds.kind]; decide)
      | brn => rw [hsa, hsb] at hk; exact absurd hk (by dsimp only [Seeds.kind]; decide)
    | hax pA =>
      cases hsb : sb.seeds with
      | hax pB => rw [hsa, hsb] at h; dsimp only at h; cases h
      | pkh tb pb sB => rw [hsa, hsb] at hk; exact absurd hk (by dsimp only [Seeds.kind]; decide)
      | tim nb ib => rw [hsa, hsb] at hk; exact absurd hk (by dsimp only [Seeds.kind]; decide)
      | brn => rw [hsa, hsb] at hk; exact absurd hk (by dsimp only [Seeds.kind]; decide)
    | tim nA iA =>
      cases hsb : sb.seeds with
      | tim nB iB =>
        rw [hsa, hsb] at h
        dsimp only at h
        by_cases hna : nA = nB
        · rw [if_neg (not_not_intro hna)] at h
          cases hmi : mergeSeeds iA iB with
          | error e0 =>
            rw [hmi] at h
            cases h
            exact mergeSeeds_error_shape hmi
          | ok inner =>
            rw [hmi] at h
            cases h
        · rw [if_pos hna] at h
          cases h
          exact Or.inr (Or.inr (Or.inr rfl))
      | pkh tb pb sB => rw [hsa, hsb] at hk; exact absurd hk (by dsimp only [Seeds.kind]; decide)
      | hax pB => rw [hsa, hsb] at hk; exact absurd hk (by dsimp only [Seeds.kind]; decide)
      | brn => rw [hsa, hsb] at hk; exact absurd hk (by dsimp only [Seeds.kind]; decide)
    | brn =>
      cases hsb : sb.seeds with
      | brn => rw [hsa, hsb] at h; dsimp only at h; cases h
      | pkh tb pb sB => rw [hsa, hsb] at hk; exact absurd hk (by dsimp only [Seeds.kind]; decide)
      | hax pB => rw [hsa, hsb] at hk; exact absurd hk (by dsimp only [Seeds.kind]; decide)
      | tim nb ib => rw [hsa, hsb] at hk; exact absurd hk (by dsimp only [Seeds.kind]; decide)
  · rw [if_pos hk] at h
    cases h
    exact Or.inl rfl

theorem mergeSpendPair_ok_facts {sa sb sm : Spend}
    (h : mergeSpendPair sa sb = .ok sm) :
    sm.noteId = sa.noteId ∧ sa.seeds.kind = sb.seeds.kind ∧
      (∀ ta pa sA tb pb sB, sa.seeds = .pkh ta pa sA → sb.seeds = .pkh tb pb sB →
        ta = tb ∧ sortStrs pa = sortStrs pb ∧
        sm.seeds = .pkh ta pa (recordUnion sA sB)) := by
  unfold mergeSpendPair at h
  by_cases hk : sa.seeds.kind = sb.seeds.kind
  · rw [if_neg (not_not_intro hk)] at h
    refine ⟨?_, hk, ?_⟩
    · cases hsa : sa.seeds with
      | pkh ta pa sA =>
        cases hsb : sb.seeds with
        | pkh tb pb sB =>
          rw [hsa, hsb] at h
          dsimp only at h
          by_cases hta : ta = tb
          · rw [if_neg (not_not_intro hta)] at h
            by_cases hpa : sortStrs pa = sortStrs pb
            · rw [if_neg (not_not_intro hpa)] at h
              cases h
              rfl
            · rw [if_pos hpa] at h
              cases h
          · rw [if_pos hta] at h
            cases h
        | hax pB => rw [hsa, hsb] at hk; exact absurd hk (by dsimp only [Seeds.kind]; decide)
        | tim nb ib => rw [hsa, hsb] at hk; exact absurd hk (by dsimp only [Seeds.kind]; decide)
        | brn => rw [hsa, hsb] at hk; exact absurd hk (by dsimp only [Seeds.kind]; decide)
      | hax pA =>
        cases hsb : sb.seeds with
        | hax pB =>
          rw [hsa, hsb] at h
          dsimp only at h
          cases h
          rfl
        | pkh tb pb sB => rw [hsa, hsb] at hk; exact absurd hk (by dsimp only [Seeds.kind]; decide)
        | tim nb ib => rw [hsa, hsb] at hk; exact absurd hk (by dsimp only [Seeds.kind]; decide)
        | brn => rw [hsa, hsb] at hk; exact absurd hk (by dsimp only [Seeds.kind]; decide)
      | tim nA iA =>
        cases hsb : sb.seeds with
        | tim nB iB =>
          rw [hsa, hsb] at h
          dsimp only at h
          by_cases hna : nA = nB
          · rw [if_neg (not_not_intro hna)] at h
            cases hmi : mergeSeeds iA iB with
            | error e0 =>
              rw [hmi] at h
              cases h
            | ok inner =>
              rw [hmi] at h
              cases h
              rfl
          · rw [if_pos hna] at h
            cases h
        | pkh tb pb sB => rw [hsa, hsb] at hk; exact absurd hk (by dsimp only [Seeds.kind]; decide)
        | hax pB => rw [hsa, hsb] at hk; exact absurd hk (by dsimp only [Seeds.kind]; decide)
        | brn => rw [hsa, hsb] at hk; exact absurd hk (by dsimp only [Seeds.kind]; decide)
      | brn =>
        cases hsb : sb.seeds with
        | brn =>
          rw [hsa, hsb] at h
          dsimp only at h
          cases h
          rfl
        | pkh tb pb sB => rw [hsa, hsb] at hk; exact absurd hk (by dsimp only [Seeds.kind]; decide)
        | hax pB => rw [hsa, hsb] at hk; exact absurd hk (by dsimp only [Seeds.kind]; decide)
        | tim nb ib => rw [hsa, hsb] at hk; exact absurd hk (by dsimp only [Seeds.kind]; decide)
    · intro ta pa sA tb pb sB hsa hsb
      rw [hsa, hsb] at h
      dsimp only at h
      by_cases hta : ta = tb
      · rw [if_neg (not_not_intro hta)] at h
        by_cases hpa : sortStrs pa = sortStrs pb
        · rw [if_neg (not_not_intro hpa)] at h
          cases h
          exact ⟨hta, hpa, rfl⟩
        · rw [if_pos hpa] at h
          cases h
      · rw [if_pos hta] at h
        cases h
  · rw [if_pos hk] at h
    cases h

/-- The per-spend callback of `mergePartiallySignedTx`. -/
def mergeStep (bspends : List Spend) (sa : Spend) : Except TxError Spend :=
  match mapGetLast bspends sa.noteId with
  | none => .ok sa
  | some sb => mergeSpendPair sa sb

theorem merge_eq_map (a b : Transaction) :
    mergePartiallySignedTx a b =
      if a.unsignedHash ≠ b.unsignedHash then .error .hashMismatch
      else match exceptMap (mergeStep b.spends) a.spends with
        | .error e => .error e
        | .ok spends => .ok { a with spends := spends } := rfl

theorem mergeStep_ok_facts {bspends : List Spend} {sa sm : Spend}
    (h : mergeStep bspends sa = .ok sm) :
    sm.noteId = sa.noteId ∧ (mapGetLast bspends sa.noteId = none → sm = sa) ∧
      (∀ sb, mapGetLast bspends sa.noteId = some sb →
        sa.seeds.kind = sb.seeds.kind ∧
        (∀ ta pa sA tb pb sB, sa.seeds = .pkh ta pa sA → sb.seeds = .pkh tb pb sB →
          ta = tb ∧ sortStrs pa = sortStrs pb ∧
          sm.seeds = .pkh ta pa (recordUnion sA sB))) := by
  unfold mergeStep at h
  cases hget : mapGetLast bspends sa.noteId with
  | none =>
    rw [hget] at h
    cases h
    refine ⟨rfl, fun _ => rfl, fun sb hsb => ?_⟩
    cases hsb
  | some sb =>
    rw [hget] at h
    have hf := mergeSpendPair_ok_facts h
    refine ⟨hf.1, fun hc => ?_, fun sb' hsb' => ?_⟩
    · cases hc
    · injection hsb' with he
      subst he
      exact ⟨hf.2.1, hf.2.2⟩

theorem mergeStep_error_shape {bspends : List Spend} {sa : Spend} {e : TxError}
    (h : mergeStep bspends sa = .error e) :
    e = .kindMismatch ∨ e = .thresholdMismatch ∨ e = .pkhsMismatch ∨
      e = .notBeforeMismatch := by
  unfold mergeStep at h
  cases hget : mapGetLast bspends sa.noteId with
  | none =>
    rw [hget] at h
    cases h
  | some sb =>
    rw [hget] at h
    exact mergeSpendPair_error_shape h

/-- **C4** (confirmed).  `mergePartiallySignedTx` fails with the hash-mismatch
error exactly when the two `unsignedHash`es differ; on success the result
keeps `a`'s hash, version, network, outputs and fee, every spend of `a` not
present in `b` passes through unchanged, and every spend present in both has
equal seeds kinds and — for %pkh — equal thresholds, equal sorted pkh lists,
and the union `{...a.signatures, ...b.signatures}` as its signature map; any
failure on hash-equal inputs is one of the lock-mismatch errors; and the
union resolves a colliding pubkey to `b`'s entry. -/
theorem c4_merge_semantics (a b : Transaction) :
    (mergePartiallySignedTx a b = .error .hashMismatch ↔
      a.unsignedHash ≠ b.unsignedHash)
    ∧ (∀ m, mergePartiallySignedTx a b = .ok m →
        m.unsignedHash = a.unsignedHash ∧ m.version = a.version ∧
        m.network = a.network ∧ m.outputs = a.outputs ∧ m.fee = a.fee ∧
        List.Forall₂ (fun sa sm =>
          sm.noteId = sa.noteId ∧
          (mapGetLast b.spends sa.noteId = none → sm = sa) ∧
          (∀ sb, mapGetLast b.spends sa.noteId = some sb →
            sa.seeds.kind = sb.seeds.kind ∧
            (∀ ta pa sA tb pb sB, sa.seeds = .pkh ta pa sA →
              sb.seeds = .pkh tb pb sB →
              ta = tb ∧ sortStrs pa = sortStrs pb ∧
              sm.seeds = .pkh ta pa (recordUnion sA sB)))) a.spends m.spends)
    ∧ (∀ e, a.unsignedHash = b.unsignedHash →
        mergePartiallySignedTx a b = .error e →
        e = .kindMismatch ∨ e = .thresholdMismatch ∨ e = .pkhsMismatch ∨
          e = .notBeforeMismatch)
    ∧ (∀ (sA sB : List (String × String)) (k : String), (sB.map Prod.fst).Nodup →
        recordLookup (recordUnion sA sB) k =
          match recordLookup sB k with
          | some v => some v
          | none => recordLookup sA k) := by
  have herr : ∀ e, a.unsignedHash = b.unsignedHash →
      mergePartiallySignedTx a b = .error e →
      e = .kindMismatch ∨ e = .thresholdMismatch ∨ e = .pkhsMismatch ∨
        e = .notBeforeMismatch := by
    intro e hh hc
    rw [merge_eq_map, if_neg (not_not_intro hh)] at hc
    cases hmap : exceptMap (mergeStep b.spends) a.spends with
    | error e0 =>
      rw [hmap] at hc
      cases hc
      obtain ⟨x, -, hx⟩ := exceptMap_error_elim hmap
      exact mergeStep_error_shape hx
    | ok spends =>
      rw [hmap] at hc
      cases hc
  refine ⟨?_, ?_, herr, fun sA sB k hB => recordUnion_lookup sA sB k hB⟩
  · constructor
    · intro h
      by_contra hh
      rcases herr .hashMismatch hh h with h1 | h1 | h1 | h1 <;> cases h1
    · intro hne
      rw [merge_eq_map, if_pos hne]
  · intro m h
    by_cases hh : a.unsignedHash = b.unsignedHash
    · rw [merge_eq_map, if_neg (not_not_intro hh)] at h
      cases hmap : exceptMap (mergeStep b.spends) a.spends with
      | error e0 =>
        rw [hmap] at h
        cases h
      | ok spends =>
        rw [hmap] at h
        cases h
        refine ⟨rfl, rfl, rfl, rfl, rfl, ?_⟩
        exact List.Forall₂.imp (fun sa sm hfs => mergeStep_ok_facts hfs)
          (exceptMap_ok_forall₂ hmap)
    · rw [merge_eq_map, if_pos hh] at h
      cases h

/-- Witness for C4: a hash mismatch is rejected, and on a colliding pubkey
the merged signature map takes `b`'s entry. -/
theorem c4_witness :
    mergePartiallySignedTx
      { version := 1, spends := [], outputs := [], fee := 0, unsignedHash := "u1" }
      { version := 1, spends := [], outputs := [], fee := 0, unsignedHash := "u2" }
      = .error .hashMismatch
    ∧ recordLookup (recordUnion [("p1", "s1")] [("p1", "s1x"), ("p2", "s2")]) "p1" =
        match recordLookup [("p1", "s1x"), ("p2", "s2")] "p1" with
        | some v => some v
        | none => recordLookup [("p1", "s1")] "p1" :=
  ⟨(c4_merge_semantics
      { version := 1, spends := [], outputs := [], fee := 0, unsignedHash := "u1" }
      { version := 1, spends := [], outputs := [], fee := 0, unsignedHash := "u2" }).1.mpr
      (by decide),
   (c4_merge_semantics
      { version := 1, spends := [], outputs := [], fee := 0, unsignedHash := "u1" }
      { version := 1, spends := [], outputs := [], fee := 0, unsignedHash := "u2" }).2.2.2
      [("p1", "s1")] [("p1", "s1x"), ("p2", "s2")] "p1" (by decide)⟩

/-! ### Multi-note allocation: success exactly when capacity suffices -/

/-- The spare capacity of one builder spend, clamped at zero (a spend whose
capacity is already exhausted contributes nothing). -/
def sparePos (s : BuilderSpend) : Int := max (s.assets - getSpendUsed s) 0

def spareSum (spends : List BuilderSpend) : Int := (spends.map sparePos).sum

def queueTotal (q : List BuilderSeed) : Int := (q.map BuilderSeed.amount).sum

theorem spareSum_nonneg (spends : List BuilderSpend) : 0 ≤ spareSum spends := by
  refine List.sum_nonneg ?_
  intro x hx
  obtain ⟨s, -, rfl⟩ := List.mem_map.mp hx
  exact le_max_right _ _

theorem queueTotal_nonneg {q : List BuilderSeed}
    (hq : ∀ x ∈ q, 0 ≤ x.amount) : 0 ≤ queueTotal q := by
  refine List.sum_nonneg ?_
  intro x hx
  obtain ⟨a, ha, rfl⟩ := List.mem_map.mp hx
  exact hq a ha

theorem spareSum_cons (s : BuilderSpend) (rest : List BuilderSpend) :
    spareSum (s :: rest) = sparePos s + spareSum rest := by
  simp [spareSum]

theorem queueTotal_cons (x : BuilderSeed) (q : List BuilderSeed) :
    queueTotal (x :: q) = x.amount + queueTotal q := by
  simp [queueTotal]

theorem distributeFeeLoop_remaining :
    ∀ (spends : List BuilderSpend) (r : Int), 0 ≤ r →
      (distributeFeeLoop spends r).2 = max (r - spareSum spends) 0 := by
  intro spends
  induction spends with
  | nil =>
    intro r hr
    simp only [distributeFeeLoop, spareSum, List.map_nil, List.sum_nil]
    omega
  | cons s rest ih =>
    intro r hr
    simp only [distributeFeeLoop]
    rw [spareSum_cons]
    have hsum := spareSum_nonneg rest
    by_cases hr0 : r ≤ 0
    · rw [if_pos hr0]
      simp only [sparePos]
      omega
    · rw [if_neg hr0]
      by_cases hcap : s.assets - getSpendUsed s ≤ 0
      · rw [if_pos hcap]
        cases hl : distributeFeeLoop rest r with
        | mk sp2 rem =>
          have := ih r hr
          rw [hl] at this
          dsimp only at this ⊢
          simp only [sparePos]
          omega
      · rw [if_neg hcap]
        by_cases hshare : r ≤ s.assets - getSpendUsed s
        · rw [if_pos hshare]
          cases hl : distributeFeeLoop rest (r - r) with
          | mk sp2 rem =>
            have := ih (r - r) (by omega)
            rw [hl] at this
            dsimp only at this ⊢
            simp only [sparePos]
            omega
        · rw [if_neg hshare]
          cases hl : distributeFeeLoop rest (r - (s.assets - getSpendUsed s)) with
          | mk sp2 rem =>
            have := ih (r - (s.assets - getSpendUsed s)) (by omega)
            rw [hl] at this
            dsimp only at this ⊢
            simp only [sparePos]
            omega

theorem fillSpend_spec :
    ∀ (q : List BuilderSeed) (cap : Int), (∀ x ∈ q, 0 < x.amount) →
      (∀ x ∈ (fillSpend cap q).2, 0 < x.amount) ∧
      queueTotal (fillSpend cap q).2 = max (queueTotal q - max cap 0) 0 := by
  intro q
  induction q with
  | nil =>
    intro cap hq
    refine ⟨fun x hx => absurd hx (by simp [fillSpend]), ?_⟩
    simp only [fillSpend, queueTotal, List.map_nil, List.sum_nil]
    omega
  | cons t rest ih =>
    intro cap hq
    have ht := hq t (List.mem_cons_self t rest)
    have hrest : ∀ x ∈ rest, 0 < x.amount :=
      fun x hx => hq x (List.mem_cons_of_mem t hx)
    have hrtot : 0 ≤ queueTotal rest :=
      queueTotal_nonneg (fun x hx => le_of_lt (hrest x hx))
    simp only [fillSpend]
    by_cases hc0 : cap ≤ 0
    · rw [if_pos hc0]
      refine ⟨hq, ?_⟩
      rw [queueTotal_cons]
      omega
    · rw [if_neg hc0]
      by_cases htc : t.amount ≤ cap
      · rw [if_pos htc]
        cases hf : fillSpend (cap - t.amount) rest with
        | mk seeds q1 =>
          have := ih (cap - t.amount) hrest
          rw [hf] at this
          dsimp only at this ⊢
          refine ⟨this.1, ?_⟩
          rw [this.2, queueTotal_cons]
          omega
      · rw [if_neg htc]
        dsimp only
        constructor
        · intro x hx
          rcases List.mem_cons.mp hx with rfl | hx'
          · dsimp only
            omega
          · exact hrest x hx'
        · rw [queueTotal_cons, queueTotal_cons]
          dsimp only
          omega

theorem distributeAmountsLoop_spec :
    ∀ (spends : List BuilderSpend) (q : List BuilderSeed),
      (∀ x ∈ q, 0 < x.amount) →
      (∀ x ∈ (distributeAmountsLoop spends q).2, 0 < x.amount) ∧
      queueTotal (distributeAmountsLoop spends q).2 =
        max (queueTotal q - spareSum spends) 0 := by
  intro spends
  induction spends with
  | nil =>
    intro q hq
    refine ⟨hq, ?_⟩
    simp only [distributeAmountsLoop, spareSum, List.map_nil, List.sum_nil]
    have := queueTotal_nonneg (fun x hx => le_of_lt (hq x hx))
    omega
  | cons s rest ih =>
    intro q hq
    have hqtot : 0 ≤ queueTotal q :=
      queueTotal_nonneg (fun x hx => le_of_lt (hq x hx))
    have hsum := spareSum_nonneg rest
    simp only [distributeAmountsLoop]
    rw [spareSum_cons]
    by_cases hlen : q.length = 0
    · rw [if_pos hlen]
      have hq0 : q = [] := List.length_eq_zero.mp hlen
      subst hq0
      refine ⟨hq, ?_⟩
      simp only [queueTotal, List.map_nil, List.sum_nil]
      have : 0 ≤ sparePos s := le_max_right _ _
      omega
    · rw [if_neg hlen]
      by_cases hcap : s.assets - getSpendUsed s ≤ 0
      · rw [if_pos hcap]
        cases hl : distributeAmountsLoop rest q with
        | mk rs q2 =>
          have := ih q hq
          rw [hl] at this
          dsimp only at this ⊢
          refine ⟨this.1, ?_⟩
          rw [this.2]
          simp only [sparePos]
          omega
      · rw [if_neg hcap]
        cases hf : fillSpend (s.assets - getSpendUsed s) q with
        | mk newSeeds q1 =>
          have hfs := fillSpend_spec q (s.assets - getSpendUsed s) hq
          rw [hf] at hfs
          dsimp only at hfs
          cases hl : distributeAmountsLoop rest q1 with
          | mk rs q2 =>
            have := ih q1 hfs.1
            rw [hl] at this
            dsimp only at this ⊢
            refine ⟨this.1, ?_⟩
            rw [this.2, hfs.2]
            simp only [sparePos]
            omega

theorem queue_any_pos {q : List BuilderSeed} (hq : ∀ x ∈ q, 0 < x.amount) :
    (q.any (fun a => a.amount > 0) = true) ↔ 0 < queueTotal q := by
  cases q with
  | nil => simp [queueTotal]
  | cons x rest =>
    have hx := hq x (List.mem_cons_self x rest)
    have hrtot : 0 ≤ queueTotal rest :=
      queueTotal_nonneg (fun z hz => le_of_lt (hq z (List.mem_cons_of_mem x hz)))
    rw [queueTotal_cons]
    simp only [List.any_cons, Bool.or_eq_true, decide_eq_true_eq]
    constructor
    · intro _
      omega
    · intro _
      exact Or.inl hx

/-- **C9** (confirmed).  The fee drain and the front-of-queue demand packing
over the notes in input order succeed exactly when the spare capacities
suffice, and at capacities `[70, 40]` with demands `[(A,60), (B,50)]` and fee
`0`, note 1 receives all 60 of A plus 10 of B and note 2 the remaining 40 of
B. -/
theorem c9_distribution_order_and_failure :
    distributeAmountsAcrossSpends
        [{ assets := 70, fee := 0, seeds := [] },
         { assets := 40, fee := 0, seeds := [] }]
        [⟨"A", 60⟩, ⟨"B", 50⟩] =
      .ok [{ assets := 70, fee := 0, seeds := [⟨"A", 60⟩, ⟨"B", 10⟩] },
           { assets := 40, fee := 0, seeds := [⟨"B", 40⟩] }]
    ∧ (∀ (spends : List BuilderSpend) (totalFee : Int),
        distributeFeeAcrossSpends spends totalFee = .error .feeAllocation ↔
          0 < totalFee ∧ spareSum spends < totalFee)
    ∧ (∀ (spends : List BuilderSpend) (amounts : List BuilderSeed),
        distributeAmountsAcrossSpends spends amounts = .error .outputAllocation ↔
          spareSum spends <
            queueTotal (amounts.filter (fun a => a.amount > 0))) := by
  refine ⟨by decide, ?_, ?_⟩
  · intro spends totalFee
    unfold distributeFeeAcrossSpends
    by_cases hle : totalFee ≤ 0
    · rw [if_pos hle]
      exact ⟨fun hc => Except.noConfusion hc, fun h => absurd h.1 (by omega)⟩
    · rw [if_neg hle]
      cases hl : distributeFeeLoop spends totalFee with
      | mk sp2 rem =>
        have hrem := distributeFeeLoop_remaining spends totalFee (by omega)
        rw [hl] at hrem
        dsimp only at hrem ⊢
        have hsum := spareSum_nonneg spends
        by_cases hpos : rem > 0
        · rw [if_pos hpos]
          exact ⟨fun _ => ⟨by omega, by omega⟩, fun _ => rfl⟩
        · rw [if_neg hpos]
          exact ⟨fun hc => Except.noConfusion hc, fun h => by omega⟩
  · intro spends amounts
    unfold distributeAmountsAcrossSpends
    have hq : ∀ x ∈ amounts.filter (fun a => a.amount > 0), 0 < x.amount := by
      intro x hx
      have := List.of_mem_filter hx
      simpa using this
    have hqtot : 0 ≤ queueTotal (amounts.filter (fun a => a.amount > 0)) :=
      queueTotal_nonneg (fun x hx => le_of_lt (hq x hx))
    cases hl : distributeAmountsLoop spends (amounts.filter (fun a => a.amount > 0)) with
    | mk sp2 q2 =>
      have hspec := distributeAmountsLoop_spec spends
        (amounts.filter (fun a => a.amount > 0)) hq
      rw [hl] at hspec
      dsimp only at hspec ⊢
      rw [hl]
      dsimp only
      have hany := queue_any_pos hspec.1
      by_cases hp : q2.any (fun a => a.amount > 0) = true
      · rw [if_pos hp]
        have := hany.mp hp
        exact ⟨fun _ => by omega, fun _ => rfl⟩
      · rw [if_neg hp]
        refine ⟨fun hc => Except.noConfusion hc, fun h => ?_⟩
        have : ¬ 0 < queueTotal q2 := fun hc => hp (hany.mpr hc)
        omega

/-! ### Decimal rendering round-trips through `BigInt(string)` -/

theorem digitChar_bounds (d : Nat) :
    48 ≤ (digitChar d).toNat ∧ (digitChar d).toNat ≤ 57 := by
  unfold digitChar
  split_ifs <;> decide

theorem digitChar_toNat {d : Nat} (hd : d < 10) : (digitChar d).toNat = 48 + d := by
  interval_cases d <;> decide

theorem decDigitsAux_append (l1 l2 : List Char) (acc : Nat) :
    decDigitsAux (l1 ++ l2) acc =
      match decDigitsAux l1 acc with
      | some a => decDigitsAux l2 a
      | none => none := by
  induction l1 generalizing acc with
  | nil => rfl
  | cons c cs ih =>
    simp only [List.cons_append, decDigitsAux]
    by_cases hc : 48 ≤ c.toNat ∧ c.toNat ≤ 57
    · rw [if_pos hc, if_pos hc]
      simp only [List.append_eq]
      rw [ih]
    · rw [if_neg hc, if_neg hc]

theorem natDecCharsFuel_ne_nil (fuel n : Nat) (h : fuel ≠ 0) :
    natDecCharsFuel fuel n ≠ [] := by
  cases fuel with
  | zero => exact absurd rfl h
  | succ f =>
    simp only [natDecCharsFuel]
    by_cases hn : n < 10
    · rw [if_pos hn]
      simp
    · rw [if_neg hn]
      simp

theorem natDecCharsFuel_digits :
    ∀ (fuel n : Nat), ∀ c ∈ natDecCharsFuel fuel n,
      48 ≤ c.toNat ∧ c.toNat ≤ 57 := by
  intro fuel
  induction fuel with
  | zero =>
    intro n c hc
    cases hc
  | succ f ih =>
    intro n c hc
    simp only [natDecCharsFuel] at hc
    by_cases hn : n < 10
    · rw [if_pos hn] at hc
      rcases List.mem_singleton.mp hc with rfl
      exact digitChar_bounds n
    · rw [if_neg hn] at hc
      rcases List.mem_append.mp hc with hc' | hc'
      · exact ih (n / 10) c hc'
      · rcases List.mem_singleton.mp hc' with rfl
        exact digitChar_bounds (n % 10)

theorem natDecCharsFuel_spec :
    ∀ (fuel n : Nat), n < fuel → ∀ acc,
      decDigitsAux (natDecCharsFuel fuel n) acc =
        some (acc * 10 ^ (natDecCharsFuel fuel n).length + n) := by
  intro fuel
  induction fuel with
  | zero =>
    intro n hn
    omega
  | succ f ih =>
    intro n hn acc
    simp only [natDecCharsFuel]
    by_cases h10 : n < 10
    · rw [if_pos h10]
      simp only [decDigitsAux, List.length_singleton]
      rw [if_pos ⟨(digitChar_bounds n).1, (digitChar_bounds n).2⟩]
      congr 1
      rw [digitChar_toNat h10]
      ring_nf
      omega
    · rw [if_neg h10]
      have hrec : n / 10 < f := by
        have h1 : n / 10 < n := Nat.div_lt_self (by omega) (by omega)
        omega
      rw [decDigitsAux_append, ih (n / 10) hrec acc]
      simp only [decDigitsAux]
      rw [if_pos ⟨(digitChar_bounds (n % 10)).1, (digitChar_bounds (n % 10)).2⟩]
      simp only [decDigitsAux, List.length_append, List.length_singleton]
      congr 1
      rw [digitChar_toNat (Nat.mod_lt n (by omega))]
      have hdm := Nat.div_add_mod n 10
      rw [pow_succ]
      ring_nf
      omega

theorem natDecChars_spec (n : Nat) :
    decDigitsAux (natDecChars n) 0 = some n := by
  unfold natDecChars
  rw [natDecCharsFuel_spec (n + 1) n (by omega) 0]
  simp

theorem natDecChars_ne_nil (n : Nat) : natDecChars n ≠ [] :=
  natDecCharsFuel_ne_nil (n + 1) n (by omega)

theorem natDecChars_digits (n : Nat) :
    ∀ c ∈ natDecChars n, 48 ≤ c.toNat ∧ c.toNat ≤ 57 :=
  natDecCharsFuel_digits (n + 1) n

theorem natDec_data (n : Nat) : (natDec n).data = natDecChars n := rfl

theorem intDec_data (v : Int) :
    (intDec v).data =
      if v < 0 then '-' :: natDecChars v.natAbs else natDecChars v.natAbs := by
  unfold intDec
  by_cases hv : v < 0
  · rw [if_pos hv, if_pos hv, String.data_append]
    rfl
  · rw [if_neg hv, if_neg hv]
    rfl

theorem bigOfChars_natDecChars (m : Nat) :
    bigOfChars (natDecChars m) = some (m : Int) := by
  cases hd : natDecChars m with
  | nil => exact absurd hd (natDecChars_ne_nil m)
  | cons c cs =>
    have hc : 48 ≤ c.toNat ∧ c.toNat ≤ 57 :=
      natDecChars_digits m c (hd ▸ List.mem_cons_self c cs)
    have hcm : c ≠ '-' := by
      intro hcc
      subst hcc
      exact absurd hc (by decide)
    simp only [bigOfChars]
    rw [if_neg hcm, ← hd, natDecChars_spec m]

/-- `BigInt("n:..."‐payload)` recovers the integer rendered by the stringify
replacer. -/
theorem bigOfChars_intDec (v : Int) : bigOfChars ((intDec v).data) = some v := by
  rw [intDec_data]
  by_cases hv : v < 0
  · rw [if_pos hv]
    cases hd : natDecChars v.natAbs with
    | nil => exact absurd hd (natDecChars_ne_nil v.natAbs)
    | cons c cs =>
      simp only [bigOfChars, if_pos rfl]
      rw [← hd, natDecChars_spec v.natAbs]
      dsimp only
      have hna : -((v.natAbs : Nat) : Int) = v := by omega
      rw [hna, if_pos trivial]
  · rw [if_neg hv, bigOfChars_natDecChars]
    have hna : ((v.natAbs : Nat) : Int) = v := by omega
    rw [hna]

/-! ### Export / import round-trip -/

/-- Key-sorting of every signature map: the only normalization the JSON
round-trip applies (JS object key order is unobservable to structural
equality; `deepCanonicalize` emits the keys sorted and the parsed object
iterates them in that order). -/
def normSeeds : Seeds → Seeds
  | .pkh t pkhs sigs => .pkh t pkhs (recordSorted sigs)
  | .hax p => .hax p
  | .tim nb inner => .tim nb (normSeeds inner)
  | .brn => .brn

def normSpend (s : Spend) : Spend := { s with seeds := normSeeds s.seeds }

def normTx (tx : Transaction) : Transaction :=
  { tx with spends := tx.spends.map normSpend }

/-- No string value of the seeds starts with the bigint tag `"n:"` (object
keys — the pubkeys — are exempt: `JSON.parse`'s reviver never touches keys). -/
def seedsExportWF : Seeds → Bool
  | .pkh _ pkhs sigs =>
    pkhs.all (fun p => !(hasTag p)) && sigs.all (fun e => !(hasTag e.2))
  | .hax pre =>
    match pre with
    | some p => !(hasTag p)
    | none => true
  | .tim _ inner => seedsExportWF inner
  | .brn => true

def txExportWF (tx : Transaction) : Bool :=
  (match tx.network with
   | some n => !(hasTag n)
   | none => true) &&
  !(hasTag tx.unsignedHash) &&
  tx.outputs.all (fun o => !(hasTag o.address) &&
    (match o.assetId with
     | some a => !(hasTag a)
     | none => true)) &&
  tx.spends.all (fun s => !(hasTag s.noteId) && seedsExportWF s.seeds)

theorem readStr_untagged {s : String} (h : hasTag s = false) :
    readStr (.str s) = .ok s := by
  unfold readStr
  dsimp only
  rw [if_neg (by simp [h])]

theorem hasTag_tagged (s : String) : hasTag ("n:" ++ s) = true := by
  unfold hasTag
  rw [String.data_append]
  rfl

theorem tagBody_tagged (s : String) : tagBody ("n:" ++ s) = s.data := by
  unfold tagBody
  rw [String.data_append]
  rfl

theorem readBig_tagged (v : Int) : readBig (.str ("n:" ++ intDec v)) = .ok v := by
  unfold readBig
  dsimp only
  rw [if_pos (by rw [hasTag_tagged]), tagBody_tagged, bigOfChars_intDec]

theorem exceptMap_map_ok {α β γ : Type} (f : β → Except TxError γ) (g : α → β)
    (k : α → γ) :
    ∀ {l : List α}, (∀ x ∈ l, f (g x) = .ok (k x)) →
      exceptMap f (l.map g) = .ok (l.map k) := by
  intro l
  induction l with
  | nil => intro _; rfl
  | cons x xs ih =>
    intro h
    simp only [List.map_cons, exceptMap, h x (List.mem_cons_self x xs),
      ih (fun z hz => h z (List.mem_cons_of_mem x hz))]

theorem decodeSigEntry_export {p : String × String} (h : hasTag p.2 = false) :
    decodeSigEntry (p.1, .str p.2) = .ok p := by
  unfold decodeSigEntry
  rw [readStr_untagged h]

theorem decodeSeeds_export {sd : Seeds} (h : seedsExportWF sd = true) :
    decodeSeeds (exportSeedsJson sd) = .ok (normSeeds sd) := by
  induction sd with
  | pkh t pkhs sigs =>
    simp only [seedsExportWF, Bool.and_eq_true, List.all_eq_true,
      Bool.not_eq_true', Bool.not_eq_true] at h
    obtain ⟨hpkhs, hsigs⟩ := h
    simp only [exportSeedsJson, decodeSeeds]
    have h1 : exceptMap readStr (pkhs.map Json.str) = .ok (pkhs.map id) :=
      exceptMap_map_ok readStr Json.str id
        (fun p hp => readStr_untagged (by simpa using hpkhs p hp))
    rw [List.map_id] at h1
    rw [h1]
    have h2 : exceptMap decodeSigEntry
        ((recordSorted sigs).map (fun p => (p.1, Json.str p.2))) =
        .ok ((recordSorted sigs).map id) :=
      exceptMap_map_ok decodeSigEntry (fun p => (p.1, Json.str p.2)) id
        (fun p hp => decodeSigEntry_export
          (by
            have hp' : p ∈ sigs := (sortBy_perm Prod.fst sigs).mem_iff.mp hp
            simpa using hsigs p hp'))
    rw [List.map_id] at h2
    rw [h2]
    rfl
  | hax pre =>
    cases pre with
    | none => rfl
    | some p =>
      simp only [seedsExportWF, Bool.not_eq_true', Bool.not_eq_true] at h
      simp only [exportSeedsJson, decodeSeeds]
      rw [readStr_untagged h]
      rfl
  | tim nb inner ih =>
    simp only [seedsExportWF] at h
    simp only [exportSeedsJson, decodeSeeds]
    rw [ih h]
    rfl
  | brn => rfl

theorem decodeOutput_export {o : Output}
    (ha : hasTag o.address = false)
    (hs : ∀ a, o.assetId = some a → hasTag a = false) :
    decodeOutput (exportOutputJson o) = .ok o := by
  obtain ⟨addr, amount, assetId⟩ := o
  cases assetId with
  | none =>
    simp only [exportOutputJson, decodeOutput]
    rw [readStr_untagged ha, readBig_tagged]
  | some a =>
    simp only [exportOutputJson, decodeOutput]
    rw [readStr_untagged ha, readBig_tagged, readStr_untagged (hs a rfl)]

theorem decodeSpend_export {s : Spend}
    (hn : hasTag s.noteId = false) (hs : seedsExportWF s.seeds = true) :
    decodeSpend (exportSpendJson s) = .ok (normSpend s) := by
  obtain ⟨nid, sds⟩ := s
  simp only [exportSpendJson, decodeSpend]
  rw [readStr_untagged hn, decodeSeeds_export hs]
  rfl

def c8badTx : Transaction :=
  { version := 1, spends := [], outputs := [{ address := "n:5", amount := 1 }],
    fee := 0, unsignedHash := "u" }

/-- Counterexample for C8.  An output address that happens to start with the
bigint tag `"n:"` is revived into a bigint by `importTx`'s `JSON.parse`
reviver, so the round-trip does not reproduce the original transaction: in
the source, `importTx(exportTx(tx)).outputs[0].address` is the bigint `5n`,
not the string `"n:5"` (the typed decoder surfaces this as a failure). -/
theorem c8_counterexample :
    importTxJson (exportTxJson c8badTx) ≠ .ok c8badTx
    ∧ importTxJson (exportTxJson c8badTx) = .error .invalidTx := by
  refine ⟨by decide, by decide⟩

/-- **C8** (corrected).  For every transaction none of whose revivable string
values (network, unsignedHash, addresses, assetIds, noteIds, pkhs, signature
strings, preimages — everything except object keys) starts with the bigint
tag `"n:"`, the round-trip succeeds and reproduces the transaction exactly,
up to sorting each signature map by pubkey — a permutation of its entries,
which is precisely JS-object key order and hence structurally unobservable;
all bigint amounts and the fee are restored exactly from their tagged
decimal strings. -/
theorem c8_amended_roundtrip (tx : Transaction) (h : txExportWF tx = true) :
    importTxJson (exportTxJson tx) = .ok (normTx tx)
    ∧ (∀ sigs : List (String × String), (recordSorted sigs).Perm sigs) := by
  refine ⟨?_, fun sigs => sortBy_perm Prod.fst sigs⟩
  simp only [txExportWF, Bool.and_eq_true, List.all_eq_true] at h
  obtain ⟨⟨⟨hnet, hhash⟩, houts⟩, hspends⟩ := h
  have houtsMap : exceptMap decodeOutput (tx.outputs.map exportOutputJson) =
      .ok (tx.outputs.map id) :=
    exceptMap_map_ok decodeOutput exportOutputJson id
      (fun o ho => by
        have := houts o ho
        simp only [Bool.and_eq_true, Bool.not_eq_true', Bool.not_eq_true] at this
        refine decodeOutput_export this.1 (fun a ha => ?_)
        rw [ha] at this
        simpa using this.2)
  rw [List.map_id] at houtsMap
  have hspendsMap : exceptMap decodeSpend (tx.spends.map exportSpendJson) =
      .ok (tx.spends.map normSpend) :=
    exceptMap_map_ok decodeSpend exportSpendJson normSpend
      (fun s hs => by
        have := hspends s hs
        simp only [Bool.and_eq_true, Bool.not_eq_true', Bool.not_eq_true] at this
        exact decodeSpend_export this.1 this.2)
  have hhash' : hasTag tx.unsignedHash = false := by
    simpa using hhash
  cases hnetc : tx.network with
  | none =>
    simp only [exportTxJson, hnetc, importTxJson]
    simp only [List.nil_append, importTxJson, importTxFields, readNum]
    rw [readStr_untagged hhash', readBig_tagged, houtsMap, hspendsMap]
    simp only [normTx, hnetc]
  | some net =>
    have hnet' : hasTag net = false := by
      rw [hnetc] at hnet
      simpa using hnet
    simp only [exportTxJson, hnetc, importTxJson]
    simp only [List.cons_append, List.nil_append, importTxJson, importTxFields,
      readNum]
    rw [readStr_untagged hhash', readBig_tagged, readStr_untagged hnet',
      houtsMap, hspendsMap]
    simp only [normTx, hnetc]

/-- Witness for C8's amended statement: a partially signed transaction with a
bignum amount round-trips exactly (signature map re-emerging key-sorted). -/
theorem c8_amended_witness :
    importTxJson (exportTxJson
      { version := 1, network := some "net",
        spends := [⟨"n1", .pkh 2 ["h1", "h2"] [("B", "sB"), ("A", "sA")]⟩],
        outputs := [{ address := "o1", amount := 12345678901234567890 }],
        fee := 3, unsignedHash := "uh" }) =
    .ok (normTx
      { version := 1, network := some "net",
        spends := [⟨"n1", .pkh 2 ["h1", "h2"] [("B", "sB"), ("A", "sA")]⟩],
        outputs := [{ address := "o1", amount := 12345678901234567890 }],
        fee := 3, unsignedHash := "uh" }) :=
  (c8_amended_roundtrip
    { version := 1, network := some "net",
      spends := [⟨"n1", .pkh 2 ["h1", "h2"] [("B", "sB"), ("A", "sA")]⟩],
      outputs := [{ address := "o1", amount := 12345678901234567890 }],
      fee := 3, unsignedHash := "uh" } (by decide)).1

end NockTx
